import Mathlib

/-!
Verification of the text-cleaning pipeline of the `obsidian-line-cleaner`
plugin (`src/main.ts`).  JavaScript strings are modelled as `List Char`;
each stage method of `LineCleanerPlugin` is translated into an executable
Lean function, and the specification claims are settled as theorems about
those functions.
-/

set_option maxHeartbeats 1000000

abbrev Str := List Char

/-- The JavaScript whitespace set used by `String.prototype.trim` and by the
regex class `\s`: tab, LF, VT, FF, CR, space, NBSP, and the Unicode space
separators plus BOM. -/
def isWS (c : Char) : Bool :=
  let n := c.toNat
  n == 9 || n == 10 || n == 11 || n == 12 || n == 13 || n == 32 ||
  n == 160 || n == 0x1680 || (0x2000 ≤ n && n ≤ 0x200A) ||
  n == 0x2028 || n == 0x2029 || n == 0x202F || n == 0x205F ||
  n == 0x3000 || n == 0xFEFF

/-- A JavaScript line terminator (the characters `.` does not match). -/
def isLineTerm (c : Char) : Bool :=
  let n := c.toNat
  n == 10 || n == 13 || n == 0x2028 || n == 0x2029

/-- `s.trim()`: remove leading and trailing JavaScript whitespace. -/
def jsTrim (s : Str) : Str :=
  ((s.dropWhile isWS).reverse.dropWhile isWS).reverse

/-- `!marker.trim()` — the marker is blank (empty after trimming). -/
def blankStr (s : Str) : Bool := jsTrim s == []

/-- Decides whether `p` is a (contiguous, initial) prefix of `t`. -/
def prefAt : Str → Str → Bool
  | [], _ => true
  | _ :: _, [] => false
  | a :: as, b :: bs => a == b && prefAt as bs

/-- Position of the first occurrence of `pat` inside `t` (offset into `t`),
scanning left to right, as `String.prototype.indexOf` does. -/
def indexOfSuffix (pat : Str) : Str → Option Nat
  | [] => if pat = [] then some 0 else none
  | c :: rest =>
    if prefAt pat (c :: rest) then some 0
    else (indexOfSuffix pat rest).map (· + 1)

/-- `s.indexOf(pat, k)`: first occurrence of `pat` in `s` at an index ≥ `k`
(`none` plays the role of `-1`). -/
def indexOfFrom (s pat : Str) (k : Nat) : Option Nat :=
  if k ≤ s.length then (indexOfSuffix pat (s.drop k)).map (· + k)
  else if pat = [] then some s.length else none

/-- `s.includes(pat)` — substring containment. -/
def containsStr (s pat : Str) : Bool := (indexOfSuffix pat s).isSome

/-- `content.split('\n')`. -/
def splitNl : Str → List Str
  | [] => [[]]
  | c :: rest =>
    if c = '\n' then [] :: splitNl rest
    else
      match splitNl rest with
      | [] => [[c]]
      | l :: ls => (c :: l) :: ls

/-- `lines.join('\n')`. -/
def joinNl : List Str → Str
  | [] => []
  | [l] => l
  | l :: l' :: ls => l ++ '\n' :: joinNl (l' :: ls)

/-- The `{content, removals}` record every stage returns. -/
structure StageResult where
  content : Str
  removals : Nat
deriving DecidableEq, Repr

/-- The marker-scanning loop shared by `processRangeRemovals`'s two searches
(lines 234-258 of `main.ts`): iterate over the configured markers, skip blank
ones, call `indexOf(marker, k)`, and keep the candidate with the strictly
smallest index (`startIndex < earliestStartIndex` overwrites; an equal index
does not).  `acc` is the `(earliestIndex, matchedMarker)` pair built so far
(`none` encodes `earliestIndex === -1`).  The start-marker loop is the
instance `k = 0`. -/
def findEarliestLoop (s : Str) (k : Nat) (acc : Option (Nat × Str)) :
    List Str → Option (Nat × Str)
  | [] => acc
  | m :: rest =>
    if blankStr m then findEarliestLoop s k acc rest
    else
      match indexOfFrom s m k with
      | none => findEarliestLoop s k acc rest
      | some i =>
        match acc with
        | none => findEarliestLoop s k (some (i, m)) rest
        | some (b, bm) =>
          if i < b then findEarliestLoop s k (some (i, m)) rest
          else findEarliestLoop s k (some (b, bm)) rest

/-- Left-biased minimum of two optional `(index, marker)` candidates. -/
def mergeCand : Option (Nat × Str) → Option (Nat × Str) → Option (Nat × Str)
  | none, r => r
  | some x, none => some x
  | some (b, bm), some (j, m) => if j < b then some (j, m) else some (b, bm)

/-- Straight-line recursive description of the earliest-marker search: the
non-blank marker with the smallest occurrence index wins, and on a tie the
marker listed first wins. -/
def findEarliestSpec (s : Str) (k : Nat) : List Str → Option (Nat × Str)
  | [] => none
  | m :: rest =>
    if blankStr m then findEarliestSpec s k rest
    else
      match indexOfFrom s m k with
      | none => findEarliestSpec s k rest
      | some i => mergeCand (some (i, m)) (findEarliestSpec s k rest)

/-- The body of `processRangeRemovals`'s `while (true)` loop
(`main.ts` lines 223-278), with a fuel argument standing for the (finite)
number of iterations; every iteration that recurses strictly shortens the
text, so `content.length + 1` units of fuel always suffice. -/
def rangeLoopF (sMs eMs : List Str) : Nat → Str → Nat → StageResult
  | 0, s, r => ⟨s, r⟩
  | fuel + 1, s, r =>
    match findEarliestLoop s 0 none sMs with
    | none => ⟨s, r⟩
    | some (i, m) =>
      match findEarliestLoop s (i + m.length) none eMs with
      | none => ⟨s.take i, r + 1⟩
      | some (j, em) =>
        rangeLoopF sMs eMs fuel (s.take i ++ s.drop (j + em.length)) (r + 1)

/-- `processRangeRemovals` (`main.ts` lines 223-278). -/
def processRangeRemovals (sMs eMs : List Str) (s : Str) : StageResult :=
  rangeLoopF sMs eMs (s.length + 1) s 0

/-- `rangeLoopF` at its canonical fuel. -/
def rangeRun (sMs eMs : List Str) (s : Str) (r : Nat) : StageResult :=
  rangeLoopF sMs eMs (s.length + 1) s r

/-- `processSingleLineRemovals` marker passes (`main.ts` lines 286-295): for
each non-blank marker in turn, count the remaining lines containing it and
filter them out. -/
def singleLinePasses (lines : List Str) : List Str → List Str × Nat
  | [] => (lines, 0)
  | m :: rest =>
    if blankStr m then singleLinePasses lines rest
    else
      let cnt := (lines.filter (fun l => containsStr l m)).length
      let kept := lines.filter (fun l => !containsStr l m)
      let res := singleLinePasses kept rest
      (res.1, cnt + res.2)

/-- `processSingleLineRemovals` (`main.ts` lines 280-299). -/
def processSingleLineRemovals (ms : List Str) (s : Str) : StageResult :=
  let res := singleLinePasses (splitNl s) ms
  ⟨joinNl res.1, res.2⟩

/-- The literal `'%%'` delimiter. -/
def ppDelim : Str := ['%', '%']

/-- The marker test of `processCommentCleaning` (`main.ts` lines 317-325):
the comment body contains some non-blank configured marker (the `for` loop
with `break` is an `any`). -/
def shouldRemoveComment (ms : List Str) (inner : Str) : Bool :=
  ms.any (fun m => !blankStr m && containsStr inner m)

/-- The `while (searchStart < processedContent.length)` loop of
`processCommentCleaning` (`main.ts` lines 301-342), fuelled; every iteration
shrinks `content.length - searchStart`, so `content.length + 1` units of
fuel always suffice. -/
def commentLoopF (ms : List Str) : Nat → Str → Nat → Nat → StageResult
  | 0, s, _, r => ⟨s, r⟩
  | fuel + 1, s, sp, r =>
    if sp < s.length then
      match indexOfFrom s ppDelim sp with
      | none => ⟨s, r⟩
      | some i =>
        match indexOfFrom s ppDelim (i + 2) with
        | none => ⟨s, r⟩
        | some j =>
          if shouldRemoveComment ms ((s.take j).drop (i + 2)) then
            commentLoopF ms fuel (s.take i ++ s.drop (j + 2)) i (r + 1)
          else
            commentLoopF ms fuel s (j + 2) r
    else ⟨s, r⟩

/-- `processCommentCleaning` (`main.ts` lines 301-342). -/
def processCommentCleaning (ms : List Str) (s : Str) : StageResult :=
  commentLoopF ms (s.length + 1) s 0 0

/-- `commentLoopF` at its canonical fuel. -/
def commentRun (ms : List Str) (s : Str) (sp r : Nat) : StageResult :=
  commentLoopF ms (s.length + 1) s sp r

/-- The eligibility test of `processLinkCleaning` (`main.ts` lines 352-359):
the line contains some non-blank link-clean marker. -/
def shouldCleanLine (ms : List Str) (line : Str) : Bool :=
  ms.any (fun m => !blankStr m && containsStr line m)

/-- The backtick character used by the link rewriter's replacements. -/
def btick : Char := Char.ofNat 96

/-- Match of the internal-link regex `\[\[([^\]|]+)(?:\|([^\]]+))?\]\]` at
the head of `t`.  The character classes exclude the very characters that
delimit them, so the regex engine's greedy matching never backtracks past a
choice: group 1 is the maximal run without `]`/`|`, the optional display
group is the maximal run without `]`.  Returns the matched length and the
replacement `` `name` `` (`displayText || link`). -/
def wikiMatchAt : Str → Option (Nat × Str)
  | '[' :: '[' :: rest =>
    let g1 := rest.takeWhile (fun c => !(c == ']' || c == '|'))
    if g1 = [] then none
    else
      match rest.drop g1.length with
      | '|' :: r2 =>
        let g2 := r2.takeWhile (fun c => !(c == ']'))
        if g2 = [] then none
        else
          match r2.drop g2.length with
          | ']' :: ']' :: _ =>
            some (2 + g1.length + 1 + g2.length + 2, btick :: (g2 ++ [btick]))
          | _ => none
      | ']' :: ']' :: _ => some (2 + g1.length + 2, btick :: (g1 ++ [btick]))
      | _ => none
  | _ => none

/-- Match of the external-link regex `\[([^\]]+)\]\([^)]+\)` at the head of
`t`: `[text](url)` becomes `` `text` ``. -/
def extMatchAt : Str → Option (Nat × Str)
  | '[' :: rest =>
    let g1 := rest.takeWhile (fun c => !(c == ']'))
    if g1 = [] then none
    else
      match rest.drop g1.length with
      | ']' :: '(' :: r2 =>
        let g2 := r2.takeWhile (fun c => !(c == ')'))
        if g2 = [] then none
        else
          match r2.drop g2.length with
          | ')' :: _ => some (1 + g1.length + 2 + g2.length + 1, btick :: (g1 ++ [btick]))
          | _ => none
      | _ => none
  | _ => none

/-- Global regex replacement (`String.prototype.replace` with the `g` flag):
scan left to right; at a match emit the replacement and resume after the
matched span, otherwise keep one character and advance.  Both matchers above
only succeed with a positive matched length, so `t.length` units of fuel
always suffice. -/
def replaceScanF (matcher : Str → Option (Nat × Str)) : Nat → Str → Str
  | 0, s => s
  | fuel + 1, s =>
    match s with
    | [] => []
    | c :: rest =>
      match matcher (c :: rest) with
      | some (len, rep) => rep ++ replaceScanF matcher fuel ((c :: rest).drop len)
      | none => c :: replaceScanF matcher fuel rest

/-- Global deletion of the literal string `pat`
(`replace(new RegExp(escapeRegExp(pat), 'g'), '')`: the pattern is escaped,
so it matches only as literal text). -/
def removeAllF (pat : Str) : Nat → Str → Str
  | 0, s => s
  | fuel + 1, s =>
    match s with
    | [] => []
    | c :: rest =>
      if pat ≠ [] && prefAt pat (c :: rest) then
        removeAllF pat fuel ((c :: rest).drop pat.length)
      else c :: removeAllF pat fuel rest

/-- The marker-deletion loop of `convertLinksInLine`
(`main.ts` lines 389-393): every non-blank marker is deleted globally. -/
def removeMarkers (ms : List Str) (s : Str) : Str :=
  ms.foldl (fun acc m => if blankStr m then acc else removeAllF m acc.length acc) s

/-- `convertLinksInLine` (`main.ts` lines 375-396): rewrite `[[..]]` links,
then `[..](..)` links, then delete the configured markers. -/
def convertLinksInLine (ms : List Str) (line : Str) : Str :=
  let p1 := replaceScanF wikiMatchAt line.length line
  let p2 := replaceScanF extMatchAt p1.length p1
  removeMarkers ms p2

/-- The per-line loop of `processLinkCleaning` (`main.ts` lines 349-370):
eligible lines are rewritten and counted when actually changed. -/
def linkLines (ms : List Str) : List Str → List Str × Nat
  | [] => ([], 0)
  | l :: ls =>
    let res := linkLines ms ls
    if shouldCleanLine ms l then
      let cl := convertLinksInLine ms l
      (cl :: res.1, (if cl = l then 0 else 1) + res.2)
    else (l :: res.1, res.2)

/-- `processLinkCleaning` (`main.ts` lines 344-373). -/
def processLinkCleaning (ms : List Str) (s : Str) : StageResult :=
  let res := linkLines ms (splitNl s)
  ⟨joinNl res.1, res.2⟩

/-- A line is blank: `line.trim() === ''`. -/
def isBlankLine (l : Str) : Bool := jsTrim l == []

/-- The line loop of `processEmptyLineLimiting` (`main.ts` lines 409-423),
with the running count of consecutive blank lines. -/
def emptyLimitLoop (maxC : Nat) : List Str → Nat → List Str × Nat
  | [], _ => ([], 0)
  | l :: ls, cnt =>
    if isBlankLine l then
      if cnt + 1 ≤ maxC then
        let res := emptyLimitLoop maxC ls (cnt + 1)
        (l :: res.1, res.2)
      else
        let res := emptyLimitLoop maxC ls (cnt + 1)
        (res.1, res.2 + 1)
    else
      let res := emptyLimitLoop maxC ls 0
      (l :: res.1, res.2)

/-- `processEmptyLineLimiting` (`main.ts` lines 402-426). -/
def processEmptyLineLimiting (maxC : Nat) (s : Str) : StageResult :=
  let res := emptyLimitLoop maxC (splitNl s) 0
  ⟨joinNl res.1, res.2⟩

/-- The regex `/^-\s*(\[.*\])?$/` applied to a trimmed line: a dash, then
whitespace, then optionally a bracketed token (whose interior `.` cannot
contain line terminators) ending the line.  The whitespace run and the
bracket interior are delimited by non-whitespace / bracket characters, so
greedy matching is exact. -/
def isEmptyListItem (t : Str) : Bool :=
  match t with
  | '-' :: rest =>
    let b := rest.dropWhile isWS
    b == [] ||
      (match b with
       | '[' :: tl =>
         decide (tl ≠ []) && tl.getLast? == some ']' && tl.dropLast.all (fun c => !isLineTerm c)
       | _ => false)
  | _ => false

/-- `processEmptyListItemRemoval` (`main.ts` lines 428-447). -/
def processEmptyListItemRemoval (s : Str) : StageResult :=
  let lines := splitNl s
  let kept := lines.filter (fun l => !isEmptyListItem (jsTrim l))
  ⟨joinNl kept, (lines.filter (fun l => isEmptyListItem (jsTrim l))).length⟩

/-- The regex `/^-\s*\[x\]/i` applied to a trimmed line. -/
def isFinishedTask (t : Str) : Bool :=
  match t with
  | '-' :: rest =>
    match rest.dropWhile isWS with
    | '[' :: c :: ']' :: _ => c == 'x' || c == 'X'
    | _ => false
  | _ => false

/-- `processFinishedTasksRemoval` (`main.ts` lines 449-468). -/
def processFinishedTasksRemoval (s : Str) : StageResult :=
  let lines := splitNl s
  let kept := lines.filter (fun l => !isFinishedTask (jsTrim l))
  ⟨joinNl kept, (lines.filter (fun l => isFinishedTask (jsTrim l))).length⟩

/-- The fields of `LineCleanerSettings` (`settings.ts`) consumed by the
transform pipeline. -/
structure LineCleanerSettings where
  removalStrings : List Str
  rangeStartStrings : List Str
  rangeEndStrings : List Str
  cleanLinksStrings : List Str
  commentCleanerStrings : List Str
  maxConsecutiveEmptyLines : Nat
  removeEmptyListItems : Bool
  removeFinishedTasks : Bool
  enableRangeRemoval : Bool
  enableCommentCleaning : Bool
  enableLinkCleaning : Bool
  enableSingleLineRemoval : Bool
  enableEmptyLineLimiting : Bool

/-- `processContent` (`main.ts` lines 121-169): the pipeline orchestrator. -/
def processContent (cfg : LineCleanerSettings) (s : Str) : StageResult :=
  let st0 : StageResult := ⟨s, 0⟩
  let st1 :=
    if cfg.enableRangeRemoval then
      let t := processRangeRemovals cfg.rangeStartStrings cfg.rangeEndStrings st0.content
      StageResult.mk t.content (st0.removals + t.removals)
    else st0
  let st2 :=
    if cfg.enableCommentCleaning then
      let t := processCommentCleaning cfg.commentCleanerStrings st1.content
      StageResult.mk t.content (st1.removals + t.removals)
    else st1
  let st3 :=
    if cfg.enableLinkCleaning then
      let t := processLinkCleaning cfg.cleanLinksStrings st2.content
      StageResult.mk t.content (st2.removals + t.removals)
    else st2
  let st4 :=
    if cfg.enableSingleLineRemoval then
      let t := processSingleLineRemovals cfg.removalStrings st3.content
      StageResult.mk t.content (st3.removals + t.removals)
    else st3
  let st5 :=
    if cfg.removeEmptyListItems then
      let t := processEmptyListItemRemoval st4.content
      StageResult.mk t.content (st4.removals + t.removals)
    else st4
  let st6 :=
    if cfg.removeFinishedTasks then
      let t := processFinishedTasksRemoval st5.content
      StageResult.mk t.content (st5.removals + t.removals)
    else st5
  let st7 :=
    if cfg.enableEmptyLineLimiting then
      let t := processEmptyLineLimiting cfg.maxConsecutiveEmptyLines st6.content
      StageResult.mk t.content (st6.removals + t.removals)
    else st6
  st7

/-- The changed/unchanged comparison `result.content === content` exposed by
`cleanFile` / `cleanSelection` (`main.ts` lines 182, 203), as "changed". -/
def contentChanged (cfg : LineCleanerSettings) (s : Str) : Bool :=
  decide ((processContent cfg s).content ≠ s)

/-- Claim-side description of the pipeline: the seven stages with their
enable flags, in the fixed documented order. -/
def pipelineStages (cfg : LineCleanerSettings) : List (Bool × (Str → StageResult)) :=
  [(cfg.enableRangeRemoval, processRangeRemovals cfg.rangeStartStrings cfg.rangeEndStrings),
   (cfg.enableCommentCleaning, processCommentCleaning cfg.commentCleanerStrings),
   (cfg.enableLinkCleaning, processLinkCleaning cfg.cleanLinksStrings),
   (cfg.enableSingleLineRemoval, processSingleLineRemovals cfg.removalStrings),
   (cfg.removeEmptyListItems, processEmptyListItemRemoval),
   (cfg.removeFinishedTasks, processFinishedTasksRemoval),
   (cfg.enableEmptyLineLimiting, processEmptyLineLimiting cfg.maxConsecutiveEmptyLines)]

/-- Claim-side pipeline runner: feed each enabled stage the previous stage's
output and sum the removal counts; disabled stages are skipped. -/
def runPipeline (stages : List (Bool × (Str → StageResult))) (s : Str) : StageResult :=
  stages.foldl
    (fun acc st =>
      if st.1 then
        let t := st.2 acc.content
        StageResult.mk t.content (acc.removals + t.removals)
      else acc)
    ⟨s, 0⟩

/-- Claim-side occurrence predicate: some non-blank marker of `ms` matches
in `s` at offset `i`. -/
def NBOccAt (ms : List Str) (s : Str) (i : Nat) : Prop :=
  ∃ m, m ∈ ms ∧ blankStr m = false ∧ prefAt m (s.drop i) = true

/-- Claim-side description of one Range Remover iteration and of the whole
loop (claim C1): repeatedly take the textually-earliest occurrence of a
non-blank start marker, the earliest occurrence of a non-blank end marker at
or after its end, delete the inclusive span, count one removal; if no end
marker follows, delete to the end of the document, count one removal, and
stop; if no start marker occurs, stop. -/
inductive RangeRun (sMs eMs : List Str) : Str → Nat → StageResult → Prop where
  | done : ∀ s r, (∀ i, ¬ NBOccAt sMs s i) → RangeRun sMs eMs s r ⟨s, r⟩
  | toEnd : ∀ s r i m, m ∈ sMs → blankStr m = false → prefAt m (s.drop i) = true →
      (∀ i', i' < i → ¬ NBOccAt sMs s i') →
      (∀ j, i + m.length ≤ j → ¬ NBOccAt eMs s j) →
      RangeRun sMs eMs s r ⟨s.take i, r + 1⟩
  | step : ∀ s r i m j em out,
      m ∈ sMs → blankStr m = false → prefAt m (s.drop i) = true →
      (∀ i', i' < i → ¬ NBOccAt sMs s i') →
      em ∈ eMs → blankStr em = false → i + m.length ≤ j →
      prefAt em (s.drop j) = true →
      (∀ j', i + m.length ≤ j' → j' < j → ¬ NBOccAt eMs s j') →
      RangeRun sMs eMs (s.take i ++ s.drop (j + em.length)) (r + 1) out →
      RangeRun sMs eMs s r out

/-- Claim-side description of the Comment Scrubber scan (claim C2), from a
scan position `sp`: pair the first `%%` at or after `sp` with the next `%%`;
if the inner text contains a non-blank marker, delete the whole span and
resume at the span's original start; otherwise resume after the closing
delimiter; stop when no opening `%%` remains or the opening one is
unterminated. -/
inductive CommentRun (ms : List Str) : Str → Nat → Nat → StageResult → Prop where
  | stop : ∀ s sp r, (∀ p, sp ≤ p → prefAt ppDelim (s.drop p) = false) →
      CommentRun ms s sp r ⟨s, r⟩
  | unterminated : ∀ s sp r i, sp ≤ i → prefAt ppDelim (s.drop i) = true →
      (∀ p, sp ≤ p → p < i → prefAt ppDelim (s.drop p) = false) →
      (∀ p, i + 2 ≤ p → prefAt ppDelim (s.drop p) = false) →
      CommentRun ms s sp r ⟨s, r⟩
  | remove : ∀ s sp r i j out, sp ≤ i → prefAt ppDelim (s.drop i) = true →
      (∀ p, sp ≤ p → p < i → prefAt ppDelim (s.drop p) = false) →
      i + 2 ≤ j → prefAt ppDelim (s.drop j) = true →
      (∀ p, i + 2 ≤ p → p < j → prefAt ppDelim (s.drop p) = false) →
      (∃ m, m ∈ ms ∧ blankStr m = false ∧
        ∃ u v, u ++ m ++ v = (s.take j).drop (i + 2)) →
      CommentRun ms (s.take i ++ s.drop (j + 2)) i (r + 1) out →
      CommentRun ms s sp r out
  | keep : ∀ s sp r i j out, sp ≤ i → prefAt ppDelim (s.drop i) = true →
      (∀ p, sp ≤ p → p < i → prefAt ppDelim (s.drop p) = false) →
      i + 2 ≤ j → prefAt ppDelim (s.drop j) = true →
      (∀ p, i + 2 ≤ p → p < j → prefAt ppDelim (s.drop p) = false) →
      (¬ ∃ m, m ∈ ms ∧ blankStr m = false ∧
        ∃ u v, u ++ m ++ v = (s.take j).drop (i + 2)) →
      CommentRun ms s (j + 2) r out →
      CommentRun ms s sp r out

/-- A scan position reachable by the Comment Scrubber from offset 0 purely
by skipping marker-free `%%...%%` pairs (no deletions).  Used to show that a
finished run leaves no removable comment behind. -/
inductive ScanSkips (ms : List Str) (s : Str) : Nat → Prop where
  | zero : ScanSkips ms s 0
  | skip : ∀ a i j, ScanSkips ms s a → a ≤ i → prefAt ppDelim (s.drop i) = true →
      (∀ p, a ≤ p → p < i → prefAt ppDelim (s.drop p) = false) →
      i + 2 ≤ j → prefAt ppDelim (s.drop j) = true →
      (∀ p, i + 2 ≤ p → p < j → prefAt ppDelim (s.drop p) = false) →
      shouldRemoveComment ms ((s.take j).drop (i + 2)) = false →
      ScanSkips ms s (j + 2)

/-- Claim-side per-line transform of the Link Rewriter (claim C6): a line
with no non-blank marker passes through unmodified; a line with a marker has
its internal links rewritten, then its external links, then every marker
occurrence deleted. -/
def linkLineSpec (ms : List Str) (l : Str) : Str :=
  if ∃ m ∈ ms, blankStr m = false ∧ containsStr l m = true then
    removeMarkers ms (replaceScanF extMatchAt
      (replaceScanF wikiMatchAt l.length l).length
      (replaceScanF wikiMatchAt l.length l))
  else l

/-- The character list of a string literal, for concrete test inputs. -/
def strLit (s : String) : Str := s.data

section Lemmas

theorem prefAt_iff (p t : Str) : prefAt p t = true ↔ ∃ u, p ++ u = t := by
  induction p generalizing t with
  | nil => simp [prefAt]
  | cons a as ih =>
    cases t with
    | nil => simp [prefAt]
    | cons b bs =>
      simp only [prefAt, Bool.and_eq_true, beq_iff_eq, ih]
      constructor
      · rintro ⟨rfl, u, rfl⟩; exact ⟨u, rfl⟩
      · rintro ⟨u, h⟩
        cases h
        exact ⟨rfl, u, rfl⟩

theorem prefAt_nil (p : Str) : prefAt p [] = true ↔ p = [] := by
  cases p <;> simp [prefAt]

theorem prefAt_length_le {p t : Str} (h : prefAt p t = true) : p.length ≤ t.length := by
  rcases (prefAt_iff p t).1 h with ⟨u, rfl⟩
  simp

theorem prefAt_take {p t : Str} {k : Nat} (hk : p.length ≤ k) :
    prefAt p (t.take k) = prefAt p t := by
  induction p generalizing t k with
  | nil => simp [prefAt]
  | cons a as ih =>
    cases t with
    | nil => simp
    | cons b bs =>
      cases k with
      | zero => simp at hk
      | succ k' =>
        simp only [List.take_succ_cons, prefAt]
        rw [ih (by simpa using hk)]

theorem indexOfSuffix_some {pat t : Str} {j : Nat} (h : indexOfSuffix pat t = some j) :
    prefAt pat (t.drop j) = true ∧ ∀ p, p < j → prefAt pat (t.drop p) = false := by
  induction t generalizing j with
  | nil =>
    simp only [indexOfSuffix] at h
    split at h
    · rename_i hp
      cases h
      subst hp
      exact ⟨rfl, fun p hp => by omega⟩
    · cases h
  | cons c rest ih =>
    simp only [indexOfSuffix] at h
    split at h
    · rename_i hp
      cases h
      exact ⟨hp, fun p hp' => by omega⟩
    · rename_i hp
      rcases Option.map_eq_some'.1 h with ⟨j', hj', rfl⟩
      rcases ih hj' with ⟨h1, h2⟩
      refine ⟨by simpa using h1, ?_⟩
      intro p hplt
      cases p with
      | zero => simpa using Bool.eq_false_iff.2 (fun hc => by rw [hc] at hp; exact hp rfl)
      | succ p' => simpa using h2 p' (by omega)

theorem indexOfSuffix_none {pat t : Str} (h : indexOfSuffix pat t = none) :
    ∀ p, prefAt pat (t.drop p) = false := by
  induction t with
  | nil =>
    intro p
    simp only [indexOfSuffix] at h
    split at h
    · cases h
    · rename_i hp
      simp only [List.drop_nil]
      exact Bool.eq_false_iff.2 (fun hc => hp ((prefAt_nil pat).1 hc))
  | cons c rest ih =>
    intro p
    simp only [indexOfSuffix] at h
    split at h
    · cases h
    · rename_i hp
      have hrec : indexOfSuffix pat rest = none := by
        cases hx : indexOfSuffix pat rest with
        | none => rfl
        | some v => rw [hx] at h; simp at h
      cases p with
      | zero => simpa using Bool.eq_false_iff.2 (fun hc => by rw [hc] at hp; exact hp rfl)
      | succ p' => simpa using ih hrec p'

theorem indexOfSuffix_of_occ {pat t : Str} {p : Nat} (h : prefAt pat (t.drop p) = true) :
    ∃ j, indexOfSuffix pat t = some j ∧ j ≤ p := by
  cases hx : indexOfSuffix pat t with
  | none => exact absurd (indexOfSuffix_none hx p) (by simp [h])
  | some j =>
    refine ⟨j, rfl, ?_⟩
    by_contra hlt
    have := (indexOfSuffix_some hx).2 p (by omega)
    rw [h] at this
    cases this

theorem indexOfSuffix_le_length {pat t : Str} {j : Nat} (hpat : pat ≠ [])
    (h : indexOfSuffix pat t = some j) : j + pat.length ≤ t.length := by
  have h1 := (indexOfSuffix_some h).1
  have h2 := prefAt_length_le h1
  have hj : j ≤ t.length := by
    by_contra hj
    rw [List.drop_eq_nil_of_le (by omega)] at h1
    exact hpat ((prefAt_nil pat).1 h1)
  rw [List.length_drop] at h2
  omega

theorem drop_drop' (s : Str) (k q : Nat) : (s.drop k).drop q = s.drop (k + q) := by
  rw [List.drop_drop, Nat.add_comm]

theorem indexOfFrom_some {s pat : Str} {k j : Nat} (hpat : pat ≠ [])
    (h : indexOfFrom s pat k = some j) :
    k ≤ j ∧ prefAt pat (s.drop j) = true ∧
      ∀ p, k ≤ p → p < j → prefAt pat (s.drop p) = false := by
  unfold indexOfFrom at h
  by_cases hk : k ≤ s.length
  · rw [if_pos hk] at h
    rcases Option.map_eq_some'.1 h with ⟨j', hj', rfl⟩
    rcases indexOfSuffix_some hj' with ⟨h1, h2⟩
    rw [drop_drop', Nat.add_comm] at h1
    refine ⟨by omega, h1, ?_⟩
    intro p hkp hpj
    have := h2 (p - k) (by omega)
    rw [drop_drop', Nat.add_sub_cancel' hkp] at this
    exact this
  · rw [if_neg hk, if_neg hpat] at h
    cases h

theorem indexOfFrom_none {s pat : Str} {k : Nat} (hpat : pat ≠ [])
    (h : indexOfFrom s pat k = none) :
    ∀ p, k ≤ p → prefAt pat (s.drop p) = false := by
  intro p hkp
  unfold indexOfFrom at h
  by_cases hk : k ≤ s.length
  · rw [if_pos hk] at h
    cases hx : indexOfSuffix pat (s.drop k) with
    | some v => rw [hx] at h; simp at h
    | none =>
      have := indexOfSuffix_none hx (p - k)
      rw [drop_drop', Nat.add_sub_cancel' hkp] at this
      exact this
  · rw [List.drop_eq_nil_of_le (by omega)]
    exact Bool.eq_false_iff.2 (fun hc => hpat ((prefAt_nil pat).1 hc))

theorem indexOfFrom_of_occ {s pat : Str} {k p : Nat} (hpat : pat ≠ [])
    (hkp : k ≤ p) (h : prefAt pat (s.drop p) = true) :
    ∃ j, indexOfFrom s pat k = some j ∧ j ≤ p := by
  have hp : p < s.length := by
    by_contra hc
    rw [List.drop_eq_nil_of_le (by omega)] at h
    exact hpat ((prefAt_nil pat).1 h)
  have hocc : prefAt pat ((s.drop k).drop (p - k)) = true := by
    rw [drop_drop', Nat.add_sub_cancel' hkp]; exact h
  rcases indexOfSuffix_of_occ hocc with ⟨j', hj', hle⟩
  refine ⟨j' + k, ?_, by omega⟩
  unfold indexOfFrom
  rw [if_pos (by omega), hj']
  rfl

theorem indexOfFrom_bound {s pat : Str} {k j : Nat} (hpat : pat ≠ [])
    (h : indexOfFrom s pat k = some j) : j + pat.length ≤ s.length := by
  have := (indexOfFrom_some hpat h).2.1
  have hlen := prefAt_length_le this
  have hj : j ≤ s.length := by
    by_contra hc
    rw [List.drop_eq_nil_of_le (by omega)] at this
    exact hpat ((prefAt_nil pat).1 this)
  rw [List.length_drop] at hlen
  omega

theorem containsStr_iff (s pat : Str) :
    containsStr s pat = true ↔ ∃ u v, u ++ pat ++ v = s := by
  unfold containsStr
  constructor
  · intro h
    cases hx : indexOfSuffix pat s with
    | none => rw [hx] at h; cases h
    | some j =>
      have h1 := (indexOfSuffix_some hx).1
      rcases (prefAt_iff _ _).1 h1 with ⟨v, hv⟩
      exact ⟨s.take j, v, by rw [List.append_assoc, hv, List.take_append_drop]⟩
  · rintro ⟨u, v, rfl⟩
    have hocc : prefAt pat ((u ++ pat ++ v).drop u.length) = true := by
      rw [List.append_assoc, List.drop_append_of_le_length (le_refl _),
        List.drop_eq_nil_of_le (le_refl _), List.nil_append]
      exact (prefAt_iff _ _).2 ⟨v, rfl⟩
    rcases indexOfSuffix_of_occ hocc with ⟨j, hj, _⟩
    rw [hj]; rfl

theorem blankStr_ne_nil {m : Str} (h : blankStr m = false) : m ≠ [] := by
  intro hm
  subst hm
  simp [blankStr, jsTrim] at h

theorem mergeCand_assoc (a b c : Option (Nat × Str)) :
    mergeCand a (mergeCand b c) = mergeCand (mergeCand a b) c := by
  cases a with
  | none => rfl
  | some ap =>
    rcases ap with ⟨x, xm⟩
    cases b with
    | none => rfl
    | some bp =>
      rcases bp with ⟨y, ym⟩
      cases c with
      | none =>
        simp only [mergeCand]
        split <;> rfl
      | some cp =>
        rcases cp with ⟨z, zm⟩
        simp only [mergeCand]
        by_cases hzy : z < y <;> by_cases hyx : y < x <;> by_cases hzx : z < x <;>
          simp [mergeCand, hzy, hyx, hzx] <;> omega

theorem findEarliestLoop_eq_merge (s : Str) (k : Nat) (ms : List Str) :
    ∀ acc, findEarliestLoop s k acc ms = mergeCand acc (findEarliestSpec s k ms) := by
  induction ms with
  | nil =>
    intro acc
    cases acc with
    | none => rfl
    | some x => cases x; rfl
  | cons m rest ih =>
    intro acc
    unfold findEarliestLoop findEarliestSpec
    by_cases hb : blankStr m
    · rw [if_pos hb, if_pos hb]
      exact ih acc
    · rw [if_neg hb, if_neg hb]
      cases hidx : indexOfFrom s m k with
      | none =>
        dsimp only
        exact ih acc
      | some i =>
        dsimp only
        cases acc with
        | none =>
          rw [ih (some (i, m))]
          rfl
        | some bp =>
          rcases bp with ⟨b, bm⟩
          dsimp only
          rw [mergeCand_assoc]
          by_cases hib : i < b
          · rw [if_pos hib, ih (some (i, m))]
            show mergeCand (some (i, m)) _ = mergeCand (mergeCand (some (b, bm)) (some (i, m))) _
            simp only [mergeCand, if_pos hib]
          · rw [if_neg hib, ih (some (b, bm))]
            show mergeCand (some (b, bm)) _ = mergeCand (mergeCand (some (b, bm)) (some (i, m))) _
            simp only [mergeCand, if_neg hib]

theorem findEarliestSpec_some_occ {s : Str} {k : Nat} {ms : List Str} {i : Nat} {m : Str}
    (h : findEarliestSpec s k ms = some (i, m)) :
    m ∈ ms ∧ blankStr m = false ∧ indexOfFrom s m k = some i := by
  induction ms with
  | nil => cases h
  | cons m0 rest ih =>
    simp only [findEarliestSpec] at h
    split at h
    · rcases ih h with ⟨h1, h2, h3⟩
      exact ⟨List.mem_cons_of_mem _ h1, h2, h3⟩
    · rename_i hb
      cases hidx : indexOfFrom s m0 k with
      | none =>
        rw [hidx] at h
        rcases ih h with ⟨h1, h2, h3⟩
        exact ⟨List.mem_cons_of_mem _ h1, h2, h3⟩
      | some i0 =>
        rw [hidx] at h
        cases hr : findEarliestSpec s k rest with
        | none =>
          rw [hr] at h
          simp only [mergeCand] at h
          cases h
          exact ⟨List.mem_cons_self _ _, Bool.eq_false_iff.2 hb, hidx⟩
        | some jp =>
          rcases jp with ⟨j, jm⟩
          rw [hr] at h
          simp only [mergeCand] at h
          split at h
          · cases h
            rcases ih hr with ⟨h1, h2, h3⟩
            exact ⟨List.mem_cons_of_mem _ h1, h2, h3⟩
          · cases h
            exact ⟨List.mem_cons_self _ _, Bool.eq_false_iff.2 hb, hidx⟩

theorem findEarliestSpec_none {s : Str} {k : Nat} {ms : List Str}
    (h : findEarliestSpec s k ms = none) :
    ∀ m, m ∈ ms → blankStr m = false → indexOfFrom s m k = none := by
  induction ms with
  | nil => intro m hm; cases hm
  | cons m0 rest ih =>
    intro m hm hb
    simp only [findEarliestSpec] at h
    rcases List.mem_cons.1 hm with rfl | hmem
    · rw [if_neg (by simp [hb])] at h
      cases hidx : indexOfFrom s m k with
      | none => rfl
      | some i =>
        rw [hidx] at h
        exfalso
        cases hr : findEarliestSpec s k rest with
        | none => rw [hr] at h; simp [mergeCand] at h
        | some jp => rcases jp with ⟨j, jm⟩; rw [hr] at h; simp only [mergeCand] at h; split at h <;> cases h
    · split at h
      · exact ih h m hmem hb
      · cases hidx0 : indexOfFrom s m0 k with
        | none => rw [hidx0] at h; exact ih h m hmem hb
        | some i0 =>
          rw [hidx0] at h
          exfalso
          cases hr : findEarliestSpec s k rest with
          | none => rw [hr] at h; simp [mergeCand] at h
          | some jp => rcases jp with ⟨j, jm⟩; rw [hr] at h; simp only [mergeCand] at h; split at h <;> cases h

theorem findEarliestSpec_min {s : Str} {k : Nat} {ms : List Str} :
    ∀ i m, findEarliestSpec s k ms = some (i, m) →
    ∀ m', m' ∈ ms → blankStr m' = false →
      ∀ i', indexOfFrom s m' k = some i' → i ≤ i' := by
  induction ms with
  | nil => intro i m h; cases h
  | cons m0 rest ih =>
    intro i m h m' hm' hb' i' hidx'
    simp only [findEarliestSpec] at h
    by_cases hb0 : blankStr m0
    · rw [if_pos hb0] at h
      rcases List.mem_cons.1 hm' with rfl | hmem
      · rw [hb0] at hb'; cases hb'
      · exact ih i m h m' hmem hb' i' hidx'
    · rw [if_neg hb0] at h
      cases hidx0 : indexOfFrom s m0 k with
      | none =>
        rw [hidx0] at h
        rcases List.mem_cons.1 hm' with rfl | hmem
        · rw [hidx0] at hidx'; cases hidx'
        · exact ih i m h m' hmem hb' i' hidx'
      | some i0 =>
        rw [hidx0] at h
        cases hr : findEarliestSpec s k rest with
        | none =>
          rw [hr] at h
          simp only [mergeCand] at h
          cases h
          rcases List.mem_cons.1 hm' with rfl | hmem
          · rw [hidx0] at hidx'; cases hidx'; omega
          · have := findEarliestSpec_none hr m' hmem hb'
            rw [hidx'] at this; cases this
        | some jp =>
          rcases jp with ⟨j, jm⟩
          rw [hr] at h
          simp only [mergeCand] at h
          by_cases hji : j < i0
          · rw [if_pos hji] at h
            cases h
            rcases List.mem_cons.1 hm' with rfl | hmem
            · rw [hidx0] at hidx'; cases hidx'; omega
            · exact ih i m hr m' hmem hb' i' hidx'
          · rw [if_neg hji] at h
            cases h
            rcases List.mem_cons.1 hm' with rfl | hmem
            · rw [hidx0] at hidx'; cases hidx'; omega
            · have := ih j jm hr m' hmem hb' i' hidx'
              omega

theorem findEarliest_none_no_occ {s : Str} {k : Nat} {ms : List Str}
    (h : findEarliestLoop s k none ms = none) :
    ∀ p, k ≤ p → ¬ NBOccAt ms s p := by
  rw [findEarliestLoop_eq_merge] at h
  intro p hkp hocc
  rcases hocc with ⟨m, hm, hb, hpref⟩
  have hnone := findEarliestSpec_none h m hm hb
  have := indexOfFrom_none (blankStr_ne_nil hb) hnone p hkp
  rw [hpref] at this
  cases this

theorem findEarliest_some_facts {s : Str} {k : Nat} {ms : List Str} {i : Nat} {m : Str}
    (h : findEarliestLoop s k none ms = some (i, m)) :
    m ∈ ms ∧ blankStr m = false ∧ k ≤ i ∧ prefAt m (s.drop i) = true ∧
      ∀ p, k ≤ p → p < i → ¬ NBOccAt ms s p := by
  rw [findEarliestLoop_eq_merge] at h
  rcases findEarliestSpec_some_occ h with ⟨hmem, hb, hidx⟩
  have hne := blankStr_ne_nil hb
  rcases indexOfFrom_some hne hidx with ⟨hki, hpref, _⟩
  refine ⟨hmem, hb, hki, hpref, ?_⟩
  intro p hkp hpi hocc
  rcases hocc with ⟨m', hm', hb', hpref'⟩
  rcases indexOfFrom_of_occ (blankStr_ne_nil hb') hkp hpref' with ⟨j', hj', hle⟩
  have := findEarliestSpec_min _ _ h m' hm' hb' j' hj'
  omega

theorem occ_bound {m s : Str} {i : Nat} (hm : m ≠ []) (h : prefAt m (s.drop i) = true) :
    i + m.length ≤ s.length := by
  have hlen := prefAt_length_le h
  have hi : i ≤ s.length := by
    by_contra hc
    rw [List.drop_eq_nil_of_le (by omega)] at h
    exact hm ((prefAt_nil m).1 h)
  rw [List.length_drop] at hlen
  omega

theorem rangeStep_shorter {sMs eMs : List Str} {s : Str} {i j : Nat} {m em : Str}
    (hs : findEarliestLoop s 0 none sMs = some (i, m))
    (he : findEarliestLoop s (i + m.length) none eMs = some (j, em)) :
    (s.take i ++ s.drop (j + em.length)).length < s.length := by
  rcases findEarliest_some_facts hs with ⟨_, hbm, _, hpm, _⟩
  rcases findEarliest_some_facts he with ⟨_, hbem, hkj, hpem, _⟩
  have h1 := occ_bound (blankStr_ne_nil hbm) hpm
  have h2 := occ_bound (blankStr_ne_nil hbem) hpem
  have hm1 : 1 ≤ m.length := List.length_pos.2 (blankStr_ne_nil hbm)
  have hem1 : 1 ≤ em.length := List.length_pos.2 (blankStr_ne_nil hbem)
  rw [List.length_append, List.length_take, List.length_drop]
  omega

theorem rangeLoopF_congr (sMs eMs : List Str) :
    ∀ n f₁ f₂ s r, s.length ≤ n → s.length < f₁ → s.length < f₂ →
      rangeLoopF sMs eMs f₁ s r = rangeLoopF sMs eMs f₂ s r := by
  intro n
  induction n with
  | zero =>
    intro f₁ f₂ s r hn h1 h2
    cases f₁ with
    | zero => omega
    | succ a =>
      cases f₂ with
      | zero => omega
      | succ b =>
        simp only [rangeLoopF]
        cases hs : findEarliestLoop s 0 none sMs with
        | none => rfl
        | some p =>
          rcases p with ⟨i, m⟩
          dsimp only
          cases he : findEarliestLoop s (i + m.length) none eMs with
          | none => rfl
          | some q =>
            rcases q with ⟨j, em⟩
            have := rangeStep_shorter hs he
            omega
  | succ n ih =>
    intro f₁ f₂ s r hn h1 h2
    cases f₁ with
    | zero => omega
    | succ a =>
      cases f₂ with
      | zero => omega
      | succ b =>
        simp only [rangeLoopF]
        cases hs : findEarliestLoop s 0 none sMs with
        | none => rfl
        | some p =>
          rcases p with ⟨i, m⟩
          dsimp only
          cases he : findEarliestLoop s (i + m.length) none eMs with
          | none => rfl
          | some q =>
            rcases q with ⟨j, em⟩
            have hlt := rangeStep_shorter hs he
            exact ih a b _ (r + 1) (by omega) (by omega) (by omega)

theorem rangeRun_unfold (sMs eMs : List Str) (s : Str) (r : Nat) :
    rangeRun sMs eMs s r =
      match findEarliestLoop s 0 none sMs with
      | none => ⟨s, r⟩
      | some (i, m) =>
        match findEarliestLoop s (i + m.length) none eMs with
        | none => ⟨s.take i, r + 1⟩
        | some (j, em) => rangeRun sMs eMs (s.take i ++ s.drop (j + em.length)) (r + 1) := by
  show rangeLoopF sMs eMs (s.length + 1) s r = _
  simp only [rangeLoopF]
  cases hs : findEarliestLoop s 0 none sMs with
  | none => rfl
  | some p =>
    rcases p with ⟨i, m⟩
    dsimp only
    cases he : findEarliestLoop s (i + m.length) none eMs with
    | none => rfl
    | some q =>
      rcases q with ⟨j, em⟩
      have hlt := rangeStep_shorter hs he
      exact rangeLoopF_congr sMs eMs _ _ _ _ _ (le_refl _) (by omega) (by omega)

theorem commentLoopF_congr (ms : List Str) :
    ∀ n f₁ f₂ s sp r, s.length - sp ≤ n → s.length - sp < f₁ → s.length - sp < f₂ →
      commentLoopF ms f₁ s sp r = commentLoopF ms f₂ s sp r := by
  intro n
  induction n with
  | zero =>
    intro f₁ f₂ s sp r hn h1 h2
    cases f₁ with
    | zero => omega
    | succ a =>
      cases f₂ with
      | zero => omega
      | succ b =>
        simp only [commentLoopF]
        have hsp : ¬ sp < s.length := by omega
        rw [if_neg hsp, if_neg hsp]
  | succ n ih =>
    intro f₁ f₂ s sp r hn h1 h2
    cases f₁ with
    | zero => omega
    | succ a =>
      cases f₂ with
      | zero => omega
      | succ b =>
        simp only [commentLoopF]
        by_cases hsp : sp < s.length
        · rw [if_pos hsp, if_pos hsp]
          cases hi : indexOfFrom s ppDelim sp with
          | none => rfl
          | some i =>
            dsimp only
            cases hj : indexOfFrom s ppDelim (i + 2) with
            | none => rfl
            | some j =>
              have hpp : ppDelim ≠ [] := by simp [ppDelim]
              rcases indexOfFrom_some hpp hi with ⟨hspi, hoi, _⟩
              rcases indexOfFrom_some hpp hj with ⟨hij, hoj, _⟩
              have hbi := occ_bound hpp hoi
              have hbj := occ_bound hpp hoj
              simp only [ppDelim, List.length_cons, List.length_nil] at hbi hbj
              dsimp only
              by_cases hrm : shouldRemoveComment ms ((s.take j).drop (i + 2))
              · rw [if_pos hrm, if_pos hrm]
                apply ih
                · rw [List.length_append, List.length_take, List.length_drop]; omega
                · rw [List.length_append, List.length_take, List.length_drop]; omega
                · rw [List.length_append, List.length_take, List.length_drop]; omega
              · rw [if_neg hrm, if_neg hrm]
                exact ih a b s (j + 2) r (by omega) (by omega) (by omega)
        · rw [if_neg hsp, if_neg hsp]

theorem commentRun_unfold (ms : List Str) (s : Str) (sp r : Nat) :
    commentRun ms s sp r =
      if sp < s.length then
        match indexOfFrom s ppDelim sp with
        | none => ⟨s, r⟩
        | some i =>
          match indexOfFrom s ppDelim (i + 2) with
          | none => ⟨s, r⟩
          | some j =>
            if shouldRemoveComment ms ((s.take j).drop (i + 2)) then
              commentRun ms (s.take i ++ s.drop (j + 2)) i (r + 1)
            else commentRun ms s (j + 2) r
      else ⟨s, r⟩ := by
  show commentLoopF ms (s.length + 1) s sp r = _
  simp only [commentLoopF]
  by_cases hsp : sp < s.length
  · rw [if_pos hsp, if_pos hsp]
    cases hi : indexOfFrom s ppDelim sp with
    | none => rfl
    | some i =>
      dsimp only
      cases hj : indexOfFrom s ppDelim (i + 2) with
      | none => rfl
      | some j =>
        have hpp : ppDelim ≠ [] := by simp [ppDelim]
        rcases indexOfFrom_some hpp hi with ⟨hspi, hoi, _⟩
        rcases indexOfFrom_some hpp hj with ⟨hij, hoj, _⟩
        have hbi := occ_bound hpp hoi
        have hbj := occ_bound hpp hoj
        simp only [ppDelim, List.length_cons, List.length_nil] at hbi hbj
        dsimp only
        by_cases hrm : shouldRemoveComment ms ((s.take j).drop (i + 2))
        · rw [if_pos hrm, if_pos hrm]
          apply commentLoopF_congr ms ((s.take i ++ s.drop (j + 2)).length - i)
          · exact le_refl _
          · rw [List.length_append, List.length_take, List.length_drop]; omega
          · omega
        · rw [if_neg hrm, if_neg hrm]
          exact commentLoopF_congr ms (s.length - (j + 2)) _ _ s (j + 2) r (le_refl _) (by omega) (by omega)
  · rw [if_neg hsp, if_neg hsp]

theorem splitNl_ne_nil (s : Str) : splitNl s ≠ [] := by
  cases s with
  | nil => simp [splitNl]
  | cons c rest =>
    unfold splitNl
    split
    · simp
    · cases splitNl rest <;> simp

theorem joinNl_splitNl (s : Str) : joinNl (splitNl s) = s := by
  induction s with
  | nil => rfl
  | cons c rest ih =>
    unfold splitNl
    by_cases hc : c = '\n'
    · rw [if_pos hc]
      cases hsp : splitNl rest with
      | nil => exact absurd hsp (splitNl_ne_nil rest)
      | cons l ls =>
        show joinNl ([] :: l :: ls) = c :: rest
        rw [joinNl]
        rw [hsp] at ih
        simp [hc, ih]
    · rw [if_neg hc]
      cases hsp : splitNl rest with
      | nil => exact absurd hsp (splitNl_ne_nil rest)
      | cons l ls =>
        rw [hsp] at ih
        cases ls with
        | nil =>
          show joinNl [c :: l] = c :: rest
          rw [joinNl]
          rw [joinNl] at ih
          rw [ih]
        | cons l' ls' =>
          show joinNl ((c :: l) :: l' :: ls') = c :: rest
          rw [joinNl]
          rw [joinNl] at ih
          simp only [List.cons_append]
          rw [ih]

theorem mem_splitNl_no_nl (s : Str) : ∀ l, l ∈ splitNl s → '\n' ∉ l := by
  induction s with
  | nil =>
    intro l hl
    simp [splitNl] at hl
    simp [hl]
  | cons c rest ih =>
    intro l hl
    unfold splitNl at hl
    by_cases hc : c = '\n'
    · rw [if_pos hc] at hl
      rcases List.mem_cons.1 hl with rfl | hmem
      · simp
      · exact ih l hmem
    · rw [if_neg hc] at hl
      cases hsp : splitNl rest with
      | nil => exact absurd hsp (splitNl_ne_nil rest)
      | cons l0 ls =>
        rw [hsp] at hl
        rcases List.mem_cons.1 hl with rfl | hmem
        · intro hin
          rcases List.mem_cons.1 hin with rfl | hin0
          · exact hc rfl
          · exact ih l0 (by rw [hsp]; exact List.mem_cons_self _ _) hin0
        · exact ih l (by rw [hsp]; exact List.mem_cons_of_mem _ hmem)

theorem splitNl_no_nl (l : Str) (h : '\n' ∉ l) : splitNl l = [l] := by
  induction l with
  | nil => rfl
  | cons c rest ih =>
    have hc : c ≠ '\n' := fun hc => h (by rw [hc]; exact List.mem_cons_self _ _)
    unfold splitNl
    rw [if_neg hc, ih (fun hin => h (List.mem_cons_of_mem _ hin))]

theorem splitNl_cons_ne (c : Char) (hc : c ≠ '\n') (y : Str) :
    splitNl (c :: y) = (c :: (splitNl y).headI) :: (splitNl y).tail := by
  conv_lhs => unfold splitNl
  rw [if_neg hc]
  cases hsp : splitNl y with
  | nil => exact absurd hsp (splitNl_ne_nil y)
  | cons l ls => rfl

theorem splitNl_append_cons (l : Str) (h : '\n' ∉ l) (x : Str) :
    splitNl (l ++ '\n' :: x) = l :: splitNl x := by
  induction l with
  | nil => simp [splitNl]
  | cons c rest ih =>
    have hc : c ≠ '\n' := fun hc => h (by rw [hc]; exact List.mem_cons_self _ _)
    show splitNl (c :: (rest ++ '\n' :: x)) = (c :: rest) :: splitNl x
    rw [splitNl_cons_ne c hc, ih (fun hin => h (List.mem_cons_of_mem _ hin))]
    rfl

theorem splitNl_joinNl : ∀ ls : List Str, ls ≠ [] → (∀ l ∈ ls, '\n' ∉ l) →
    splitNl (joinNl ls) = ls := by
  intro ls
  induction ls with
  | nil => intro h; exact absurd rfl h
  | cons l rest ih =>
    intro _ hnl
    cases rest with
    | nil =>
      show splitNl (joinNl [l]) = [l]
      rw [joinNl]
      exact splitNl_no_nl l (hnl l (List.mem_cons_self _ _))
    | cons l' ls' =>
      show splitNl (joinNl (l :: l' :: ls')) = l :: l' :: ls'
      rw [joinNl, splitNl_append_cons l (hnl l (List.mem_cons_self _ _))]
      rw [ih (by simp) (fun x hx => hnl x (List.mem_cons_of_mem _ hx))]

theorem findEarliestSpec_first {s : Str} {k : Nat} :
    ∀ ms (i : Nat) (m : Str), findEarliestSpec s k ms = some (i, m) →
      ms.find? (fun x => !blankStr x && (indexOfFrom s x k == some i)) = some m := by
  intro ms
  induction ms with
  | nil => intro i m h; cases h
  | cons m0 rest ih =>
    intro i m h
    simp only [findEarliestSpec] at h
    by_cases hb0 : blankStr m0
    · rw [if_pos hb0] at h
      rw [List.find?_cons_of_neg _ (by simp [hb0])]
      exact ih i m h
    · rw [if_neg hb0] at h
      cases hidx0 : indexOfFrom s m0 k with
      | none =>
        rw [hidx0] at h
        rw [List.find?_cons_of_neg _ (by simp [hb0, hidx0])]
        · exact ih i m h
      | some i0 =>
        rw [hidx0] at h
        cases hr : findEarliestSpec s k rest with
        | none =>
          rw [hr] at h
          simp only [mergeCand] at h
          cases h
          rw [List.find?_cons_of_pos _ (by simp [hb0, hidx0])]
        | some jp =>
          rcases jp with ⟨j, jm⟩
          rw [hr] at h
          simp only [mergeCand] at h
          by_cases hji : j < i0
          · rw [if_pos hji] at h
            cases h
            rw [List.find?_cons_of_neg _ (by simp [hb0, hidx0]; omega)]
            exact ih i m hr
          · rw [if_neg hji] at h
            cases h
            rw [List.find?_cons_of_pos _ (by simp [hb0, hidx0])]

theorem findEarliest_first {s : Str} {k : Nat} {ms : List Str} {i : Nat} {m : Str}
    (h : findEarliestLoop s k none ms = some (i, m)) :
    ms.find? (fun x => !blankStr x && (indexOfFrom s x k == some i)) = some m := by
  rw [findEarliestLoop_eq_merge] at h
  exact findEarliestSpec_first ms i m h

theorem length_filter_partition {α : Type} (p : α → Bool) (l : List α) :
    (l.filter p).length + (l.filter (fun a => !p a)).length = l.length := by
  induction l with
  | nil => rfl
  | cons a tl ih =>
    simp only [List.filter_cons]
    by_cases hp : p a <;> simp [hp] <;> omega

theorem filter_len_zero {α : Type} {p : α → Bool} {l : List α}
    (h : (l.filter p).length = 0) : l.filter (fun a => !p a) = l := by
  induction l with
  | nil => rfl
  | cons a tl ih =>
    simp only [List.filter_cons] at h ⊢
    by_cases hp : p a
    · rw [if_pos hp] at h
      simp at h
    · rw [if_neg hp] at h
      simp [Bool.eq_false_iff.2 hp, ih h]

theorem singleLinePasses_fst (lines : List Str) (ms : List Str) :
    (singleLinePasses lines ms).1 =
      lines.filter (fun l => ms.all (fun m => blankStr m || !containsStr l m)) := by
  induction ms generalizing lines with
  | nil => simp [singleLinePasses]
  | cons m rest ih =>
    simp only [singleLinePasses]
    by_cases hb : blankStr m
    · rw [if_pos hb, ih lines]
      congr 1
      funext l
      simp [hb]
    · rw [if_neg hb]
      simp only
      rw [ih]
      rw [List.filter_filter]
      congr 1
      funext l
      simp [hb, Bool.and_comm]

theorem singleLinePasses_conserve (lines : List Str) (ms : List Str) :
    (singleLinePasses lines ms).2 + (singleLinePasses lines ms).1.length = lines.length := by
  induction ms generalizing lines with
  | nil => simp [singleLinePasses]
  | cons m rest ih =>
    simp only [singleLinePasses]
    by_cases hb : blankStr m
    · rw [if_pos hb]
      exact ih lines
    · rw [if_neg hb]
      simp only
      have := ih (lines.filter (fun l => !containsStr l m))
      have hpart := length_filter_partition (fun l => containsStr l m) lines
      omega

theorem singleLinePasses_zero {lines : List Str} {ms : List Str}
    (h : (singleLinePasses lines ms).2 = 0) : (singleLinePasses lines ms).1 = lines := by
  induction ms generalizing lines with
  | nil => rfl
  | cons m rest ih =>
    simp only [singleLinePasses] at h ⊢
    by_cases hb : blankStr m
    · rw [if_pos hb] at h ⊢
      exact ih h
    · rw [if_neg hb] at h ⊢
      simp only at h ⊢
      have hcnt : (lines.filter (fun l => containsStr l m)).length = 0 := by omega
      have hrest : (singleLinePasses (lines.filter (fun l => !containsStr l m)) rest).2 = 0 := by
        omega
      rw [ih hrest, filter_len_zero hcnt]

theorem rangeLoopF_mono (sMs eMs : List Str) :
    ∀ fuel s r, r ≤ (rangeLoopF sMs eMs fuel s r).removals := by
  intro fuel
  induction fuel with
  | zero => intro s r; exact le_refl r
  | succ f ih =>
    intro s r
    simp only [rangeLoopF]
    cases hs : findEarliestLoop s 0 none sMs with
    | none => exact le_refl r
    | some p =>
      rcases p with ⟨i, m⟩
      dsimp only
      cases he : findEarliestLoop s (i + m.length) none eMs with
      | none => exact Nat.le_succ r
      | some q =>
        rcases q with ⟨j, em⟩
        exact le_trans (Nat.le_succ r) (ih _ (r + 1))

theorem rangeLoopF_zero_eq (sMs eMs : List Str) :
    ∀ fuel s r c, rangeLoopF sMs eMs fuel s r = ⟨c, r⟩ → c = s := by
  intro fuel
  induction fuel with
  | zero =>
    intro s r c h
    injection h with h1 h2
    exact h1.symm
  | succ f ih =>
    intro s r c h
    simp only [rangeLoopF] at h
    cases hs : findEarliestLoop s 0 none sMs with
    | none =>
      rw [hs] at h
      injection h with h1 h2
      exact h1.symm
    | some p =>
      rcases p with ⟨i, m⟩
      rw [hs] at h
      dsimp only at h
      cases he : findEarliestLoop s (i + m.length) none eMs with
      | none =>
        rw [he] at h
        dsimp only at h
        injection h with h1 h2
        omega
      | some q =>
        rcases q with ⟨j, em⟩
        rw [he] at h
        dsimp only at h
        have := rangeLoopF_mono sMs eMs f (s.take i ++ s.drop (j + em.length)) (r + 1)
        rw [h] at this
        simp at this

theorem commentLoopF_mono (ms : List Str) :
    ∀ fuel s sp r, r ≤ (commentLoopF ms fuel s sp r).removals := by
  intro fuel
  induction fuel with
  | zero => intro s sp r; exact le_refl r
  | succ f ih =>
    intro s sp r
    simp only [commentLoopF]
    by_cases hsp : sp < s.length
    · rw [if_pos hsp]
      cases hi : indexOfFrom s ppDelim sp with
      | none => exact le_refl r
      | some i =>
        dsimp only
        cases hj : indexOfFrom s ppDelim (i + 2) with
        | none => exact le_refl r
        | some j =>
          dsimp only
          by_cases hrm : shouldRemoveComment ms ((s.take j).drop (i + 2))
          · rw [if_pos hrm]
            exact le_trans (Nat.le_succ r) (ih _ _ (r + 1))
          · rw [if_neg hrm]
            exact ih _ _ r
    · rw [if_neg hsp]

theorem commentLoopF_zero_eq (ms : List Str) :
    ∀ fuel s sp r c, commentLoopF ms fuel s sp r = ⟨c, r⟩ → c = s := by
  intro fuel
  induction fuel with
  | zero =>
    intro s sp r c h
    injection h with h1 h2
    exact h1.symm
  | succ f ih =>
    intro s sp r c h
    simp only [commentLoopF] at h
    by_cases hsp : sp < s.length
    · rw [if_pos hsp] at h
      cases hi : indexOfFrom s ppDelim sp with
      | none =>
        rw [hi] at h
        injection h with h1 h2
        exact h1.symm
      | some i =>
        rw [hi] at h
        dsimp only at h
        cases hj : indexOfFrom s ppDelim (i + 2) with
        | none =>
          rw [hj] at h
          dsimp only at h
          injection h with h1 h2
          exact h1.symm
        | some j =>
          rw [hj] at h
          dsimp only at h
          by_cases hrm : shouldRemoveComment ms ((s.take j).drop (i + 2))
          · rw [if_pos hrm] at h
            have := commentLoopF_mono ms f (s.take i ++ s.drop (j + 2)) i (r + 1)
            rw [h] at this
            simp at this
          · rw [if_neg hrm] at h
            exact ih s (j + 2) r c h
    · rw [if_neg hsp] at h
      injection h with h1 h2
      exact h1.symm

theorem linkLines_zero {ms : List Str} :
    ∀ lines : List Str, (linkLines ms lines).2 = 0 → (linkLines ms lines).1 = lines := by
  intro lines
  induction lines with
  | nil => intro _; rfl
  | cons l ls ih =>
    intro h
    simp only [linkLines] at h ⊢
    by_cases hc : shouldCleanLine ms l
    · rw [if_pos hc] at h ⊢
      simp only at h ⊢
      by_cases heq : convertLinksInLine ms l = l
      · rw [if_pos heq] at h
        simp only [Nat.zero_add] at h
        rw [heq, ih h]
      · rw [if_neg heq] at h
        omega
    · rw [if_neg hc] at h ⊢
      simp only at h ⊢
      rw [ih h]

theorem emptyLimitLoop_zero (maxC : Nat) :
    ∀ (ls : List Str) (c : Nat), (emptyLimitLoop maxC ls c).2 = 0 →
      (emptyLimitLoop maxC ls c).1 = ls := by
  intro ls
  induction ls with
  | nil => intro c _; rfl
  | cons l tl ih =>
    intro c h
    simp only [emptyLimitLoop] at h ⊢
    by_cases hb : isBlankLine l
    · rw [if_pos hb] at h ⊢
      by_cases hcnt : c + 1 ≤ maxC
      · rw [if_pos hcnt] at h ⊢
        simp only at h ⊢
        rw [ih (c + 1) h]
      · rw [if_neg hcnt] at h
        simp only at h
        omega
    · rw [if_neg hb] at h ⊢
      simp only at h ⊢
      rw [ih 0 h]

theorem findEarliestSpec_all_blank {s : Str} {k : Nat} {ms : List Str}
    (h : ∀ m ∈ ms, blankStr m = true) : findEarliestSpec s k ms = none := by
  induction ms with
  | nil => rfl
  | cons m rest ih =>
    simp only [findEarliestSpec]
    rw [if_pos (h m (List.mem_cons_self _ _))]
    exact ih (fun m' hm' => h m' (List.mem_cons_of_mem _ hm'))

theorem shouldRemoveComment_all_blank {ms : List Str} (h : ∀ m ∈ ms, blankStr m = true)
    (inner : Str) : shouldRemoveComment ms inner = false := by
  unfold shouldRemoveComment
  rw [List.any_eq_false]
  intro m hm
  simp [h m hm]

theorem shouldCleanLine_all_blank {ms : List Str} (h : ∀ m ∈ ms, blankStr m = true)
    (line : Str) : shouldCleanLine ms line = false := by
  unfold shouldCleanLine
  rw [List.any_eq_false]
  intro m hm
  simp [h m hm]

theorem commentLoopF_all_blank {ms : List Str} (h : ∀ m ∈ ms, blankStr m = true) :
    ∀ fuel s sp r, commentLoopF ms fuel s sp r = ⟨s, r⟩ := by
  intro fuel
  induction fuel with
  | zero => intro s sp r; rfl
  | succ f ih =>
    intro s sp r
    simp only [commentLoopF]
    by_cases hsp : sp < s.length
    · rw [if_pos hsp]
      cases hi : indexOfFrom s ppDelim sp with
      | none => rfl
      | some i =>
        dsimp only
        cases hj : indexOfFrom s ppDelim (i + 2) with
        | none => rfl
        | some j =>
          dsimp only
          rw [if_neg (by rw [shouldRemoveComment_all_blank h]; simp)]
          exact ih s (j + 2) r
    · rw [if_neg hsp]

theorem linkLines_all_blank {ms : List Str} (h : ∀ m ∈ ms, blankStr m = true) :
    ∀ lines : List Str, linkLines ms lines = (lines, 0) := by
  intro lines
  induction lines with
  | nil => rfl
  | cons l ls ih =>
    simp only [linkLines]
    rw [if_neg (by rw [shouldCleanLine_all_blank h]; simp), ih]

theorem singleLinePasses_all_blank {ms : List Str} (h : ∀ m ∈ ms, blankStr m = true)
    (lines : List Str) : singleLinePasses lines ms = (lines, 0) := by
  induction ms with
  | nil => rfl
  | cons m rest ih =>
    simp only [singleLinePasses]
    rw [if_pos (h m (List.mem_cons_self _ _))]
    exact ih (fun m' hm' => h m' (List.mem_cons_of_mem _ hm'))

theorem containsStr_nil {m : Str} (hm : m ≠ []) : containsStr [] m = false := by
  unfold containsStr indexOfSuffix
  rw [if_neg hm]
  rfl

theorem singleLinePasses_keep {ms : List Str} {lines : List Str}
    (h : ∀ l ∈ lines, ∀ m ∈ ms, blankStr m = false → containsStr l m = false) :
    singleLinePasses lines ms = (lines, 0) := by
  induction ms with
  | nil => rfl
  | cons m rest ih =>
    simp only [singleLinePasses]
    by_cases hb : blankStr m
    · rw [if_pos hb]
      exact ih (fun l hl m' hm' => h l hl m' (List.mem_cons_of_mem _ hm'))
    · rw [if_neg hb]
      have hcontains : ∀ l ∈ lines, containsStr l m = false := fun l hl =>
        h l hl m (List.mem_cons_self _ _) (Bool.eq_false_iff.2 hb)
      have hcnt : lines.filter (fun l => containsStr l m) = [] := by
        rw [List.filter_eq_nil_iff]
        intro l hl
        simp [hcontains l hl]
      have hkept : lines.filter (fun l => !containsStr l m) = lines :=
        List.filter_eq_self.2 (fun l hl => by simp [hcontains l hl])
      simp only [hcnt, hkept, List.length_nil]
      rw [ih (fun l hl m' hm' => h l hl m' (List.mem_cons_of_mem _ hm'))]
      rfl

theorem singleLine_idem (ms : List Str) (s : Str) :
    processSingleLineRemovals ms ((processSingleLineRemovals ms s).content) =
      ⟨(processSingleLineRemovals ms s).content, 0⟩ := by
  have hout : (processSingleLineRemovals ms s).content =
      joinNl ((splitNl s).filter
        (fun l => ms.all (fun m => blankStr m || !containsStr l m))) := by
    show joinNl (singleLinePasses (splitNl s) ms).1 = _
    rw [singleLinePasses_fst]
  set kept := (splitNl s).filter
    (fun l => ms.all (fun m => blankStr m || !containsStr l m)) with hkept
  have hmemkeep : ∀ l ∈ kept, ∀ m ∈ ms, blankStr m = false → containsStr l m = false := by
    intro l hl m hm hbm
    have := List.of_mem_filter hl
    rw [List.all_eq_true] at this
    have := this m hm
    simp [hbm] at this
    exact this
  rw [hout]
  by_cases hk : kept = []
  · rw [hk]
    show processSingleLineRemovals ms [] = ⟨joinNl [], 0⟩
    have hnil : ∀ l ∈ [([] : Str)], ∀ m ∈ ms, blankStr m = false →
        containsStr l m = false := by
      intro l hl m hm hbm
      rcases List.mem_singleton.1 hl with rfl
      exact containsStr_nil (blankStr_ne_nil hbm)
    show (⟨joinNl (singleLinePasses (splitNl ([] : Str)) ms).1,
      (singleLinePasses (splitNl ([] : Str)) ms).2⟩ : StageResult) = ⟨joinNl [], 0⟩
    have : splitNl ([] : Str) = [[]] := rfl
    rw [this, singleLinePasses_keep hnil]
    rfl
  · have hsplit : splitNl (joinNl kept) = kept :=
      splitNl_joinNl kept hk (fun l hl =>
        mem_splitNl_no_nl s l (List.mem_of_mem_filter hl))
    show (⟨joinNl (singleLinePasses (splitNl (joinNl kept)) ms).1,
      (singleLinePasses (splitNl (joinNl kept)) ms).2⟩ : StageResult) = ⟨joinNl kept, 0⟩
    rw [hsplit, singleLinePasses_keep hmemkeep]

theorem lineFilter_idem (pred : Str → Bool) (s : Str) (hnil : pred [] = false) :
    (joinNl (((splitNl (joinNl ((splitNl s).filter (fun l => !pred l))))).filter
       (fun l => !pred l)) =
     joinNl ((splitNl s).filter (fun l => !pred l))) ∧
    ((splitNl (joinNl ((splitNl s).filter (fun l => !pred l)))).filter
       (fun l => pred l)).length = 0 := by
  set kept := (splitNl s).filter (fun l => !pred l) with hkept
  by_cases hk : kept = []
  · rw [hk]
    have hsplit : splitNl (joinNl ([] : List Str)) = [[]] := rfl
    rw [hsplit]
    constructor
    · have : ([([] : Str)].filter (fun l => !pred l)) = [[]] := by
        simp [List.filter, hnil]
      rw [this]
      rfl
    · simp [List.filter, hnil]
  · have hsplit : splitNl (joinNl kept) = kept :=
      splitNl_joinNl kept hk (fun l hl =>
        mem_splitNl_no_nl s l (List.mem_of_mem_filter hl))
    rw [hsplit]
    have hmem : ∀ l ∈ kept, pred l = false := by
      intro l hl
      have := List.of_mem_filter hl
      simpa using this
    constructor
    · rw [List.filter_eq_self.2 (fun l hl => by simp [hmem l hl])]
    · rw [show kept.filter (fun l => pred l) = [] from
        List.filter_eq_nil_iff.2 (fun l hl => by simp [hmem l hl])]
      rfl

theorem emptyLimitLoop_mem (maxC : Nat) :
    ∀ (ls : List Str) (c : Nat) (l : Str), l ∈ (emptyLimitLoop maxC ls c).1 → l ∈ ls := by
  intro ls
  induction ls with
  | nil => intro c l hl; cases hl
  | cons x tl ih =>
    intro c l hl
    simp only [emptyLimitLoop] at hl
    by_cases hb : isBlankLine x
    · rw [if_pos hb] at hl
      by_cases hcnt : c + 1 ≤ maxC
      · rw [if_pos hcnt] at hl
        simp only at hl
        rcases List.mem_cons.1 hl with rfl | hmem
        · exact List.mem_cons_self _ _
        · exact List.mem_cons_of_mem _ (ih (c + 1) l hmem)
      · rw [if_neg hcnt] at hl
        exact List.mem_cons_of_mem _ (ih (c + 1) l hl)
    · rw [if_neg hb] at hl
      rcases List.mem_cons.1 hl with rfl | hmem
      · exact List.mem_cons_self _ _
      · exact List.mem_cons_of_mem _ (ih 0 l hmem)

theorem emptyLimitLoop_keep (maxC : Nat) :
    ∀ (ls : List Str) (c c' : Nat), c' ≤ c →
      emptyLimitLoop maxC ((emptyLimitLoop maxC ls c).1) c' =
        ((emptyLimitLoop maxC ls c).1, 0) := by
  intro ls
  induction ls with
  | nil => intro c c' _; rfl
  | cons x tl ih =>
    intro c c' hcc
    simp only [emptyLimitLoop]
    by_cases hb : isBlankLine x
    · rw [if_pos hb]
      by_cases hcnt : c + 1 ≤ maxC
      · rw [if_pos hcnt]
        simp only [emptyLimitLoop]
        rw [if_pos hb, if_pos (by omega)]
        rw [ih (c + 1) (c' + 1) (by omega)]
      · rw [if_neg hcnt]
        simp only
        exact ih (c + 1) c' (by omega)
    · rw [if_neg hb]
      simp only [emptyLimitLoop]
      rw [if_neg hb]
      rw [ih 0 0 (le_refl 0)]

theorem emptyLimitLoop_all_blank_max0 :
    ∀ (ls : List Str), (∀ l ∈ ls, isBlankLine l = true) →
      ∀ c, (emptyLimitLoop 0 ls c).1 = [] := by
  intro ls
  induction ls with
  | nil => intro _ c; rfl
  | cons x tl ih =>
    intro hall c
    simp only [emptyLimitLoop]
    rw [if_pos (hall x (List.mem_cons_self _ _)), if_neg (by omega)]
    exact ih (fun l hl => hall l (List.mem_cons_of_mem _ hl)) (c + 1)

theorem emptyLimitLoop_ne_nil_pos {maxC : Nat} (hmax : 0 < maxC) :
    ∀ (ls : List Str), ls ≠ [] → (emptyLimitLoop maxC ls 0).1 ≠ [] := by
  intro ls hne
  cases ls with
  | nil => exact absurd rfl hne
  | cons x tl =>
    simp only [emptyLimitLoop]
    by_cases hb : isBlankLine x
    · rw [if_pos hb, if_pos (by omega)]
      simp
    · rw [if_neg hb]
      simp

theorem emptyLimitLoop_ne_nil_of_nonblank :
    ∀ (ls : List Str) (maxC c : Nat), (∃ l ∈ ls, isBlankLine l = false) →
      (emptyLimitLoop maxC ls c).1 ≠ [] := by
  intro ls
  induction ls with
  | nil =>
    intro maxC c hex
    rcases hex with ⟨l, hl, _⟩
    cases hl
  | cons x tl ih =>
    intro maxC c hex
    simp only [emptyLimitLoop]
    by_cases hb : isBlankLine x
    · rw [if_pos hb]
      have hex' : ∃ l ∈ tl, isBlankLine l = false := by
        rcases hex with ⟨l, hl, hbl⟩
        rcases List.mem_cons.1 hl with rfl | hmem
        · rw [hb] at hbl; cases hbl
        · exact ⟨l, hmem, hbl⟩
      by_cases hcnt : c + 1 ≤ maxC
      · rw [if_pos hcnt]
        simp
      · rw [if_neg hcnt]
        exact ih maxC (c + 1) hex'
    · rw [if_neg hb]
      simp

theorem limiter_idem (maxC : Nat) (s : Str) :
    processEmptyLineLimiting maxC ((processEmptyLineLimiting maxC s).content) =
      (if 0 < maxC ∨ (splitNl s).all (fun l => isBlankLine l) = false
       then ⟨(processEmptyLineLimiting maxC s).content, 0⟩
       else ⟨[], 1⟩) := by
  by_cases hcond : 0 < maxC ∨ (splitNl s).all (fun l => isBlankLine l) = false
  · rw [if_pos hcond]
    have hne : (emptyLimitLoop maxC (splitNl s) 0).1 ≠ [] := by
      rcases hcond with hmax | hnall
      · exact emptyLimitLoop_ne_nil_pos hmax (splitNl s) (splitNl_ne_nil s)
      · rw [List.all_eq_false] at hnall
        rcases hnall with ⟨l, hl, hbl⟩
        exact emptyLimitLoop_ne_nil_of_nonblank (splitNl s) maxC 0
          ⟨l, hl, Bool.eq_false_iff.2 hbl⟩
    have hsplit : splitNl (joinNl (emptyLimitLoop maxC (splitNl s) 0).1) =
        (emptyLimitLoop maxC (splitNl s) 0).1 :=
      splitNl_joinNl _ hne (fun l hl =>
        mem_splitNl_no_nl s l (emptyLimitLoop_mem maxC (splitNl s) 0 l hl))
    show (⟨joinNl (emptyLimitLoop maxC
        (splitNl (joinNl (emptyLimitLoop maxC (splitNl s) 0).1)) 0).1,
      (emptyLimitLoop maxC
        (splitNl (joinNl (emptyLimitLoop maxC (splitNl s) 0).1)) 0).2⟩ : StageResult) =
      ⟨joinNl (emptyLimitLoop maxC (splitNl s) 0).1, 0⟩
    rw [hsplit, emptyLimitLoop_keep maxC (splitNl s) 0 0 (le_refl 0)]
  · rw [if_neg hcond]
    have h1 : ¬ 0 < maxC := fun h => hcond (Or.inl h)
    have hmax : maxC = 0 := by omega
    have h2 : (splitNl s).all (fun l => isBlankLine l) = true := by
      cases hx : (splitNl s).all (fun l => isBlankLine l) with
      | false => exact absurd (Or.inr hx) hcond
      | true => rfl
    rw [List.all_eq_true] at h2
    subst hmax
    have hout : (emptyLimitLoop 0 (splitNl s) 0).1 = [] :=
      emptyLimitLoop_all_blank_max0 (splitNl s) h2 0
    show processEmptyLineLimiting 0 (joinNl (emptyLimitLoop 0 (splitNl s) 0).1) = ⟨[], 1⟩
    rw [hout]
    rfl

theorem range_out_no_occ (sMs eMs : List Str) :
    ∀ n (s : Str) (r : Nat), s.length ≤ n →
      ∀ i, ¬ NBOccAt sMs (rangeRun sMs eMs s r).content i := by
  intro n
  induction n with
  | zero =>
    intro s r hn i
    rw [rangeRun_unfold]
    cases hs : findEarliestLoop s 0 none sMs with
    | none => exact findEarliest_none_no_occ hs i (Nat.zero_le i)
    | some p =>
      rcases p with ⟨i0, m⟩
      exfalso
      rcases findEarliest_some_facts hs with ⟨_, hb, _, hpref, _⟩
      have hocc := occ_bound (blankStr_ne_nil hb) hpref
      have hml : 0 < m.length := List.length_pos.2 (blankStr_ne_nil hb)
      omega
  | succ n ih =>
    intro s r hn i
    rw [rangeRun_unfold]
    cases hs : findEarliestLoop s 0 none sMs with
    | none => exact findEarliest_none_no_occ hs i (Nat.zero_le i)
    | some p =>
      rcases p with ⟨i0, m⟩
      dsimp only
      cases he : findEarliestLoop s (i0 + m.length) none eMs with
      | none =>
        rcases findEarliest_some_facts hs with ⟨_, hb, _, hpref, hmin⟩
        intro hocc
        rcases hocc with ⟨m', hm', hb', hp'⟩
        rw [List.drop_take] at hp'
        have hlen := prefAt_length_le hp'
        rw [List.length_take, List.length_drop] at hlen
        have hml' : 0 < m'.length := List.length_pos.2 (blankStr_ne_nil hb')
        have hmle : m'.length ≤ i0 - i := by omega
        rw [prefAt_take hmle] at hp'
        exact hmin i (Nat.zero_le i) (by omega) ⟨m', hm', hb', hp'⟩
      | some q =>
        rcases q with ⟨j, em⟩
        have hlt := rangeStep_shorter hs he
        exact ih (s.take i0 ++ s.drop (j + em.length)) (r + 1) (by omega) i

theorem range_idem (sMs eMs : List Str) (s : Str) :
    processRangeRemovals sMs eMs ((processRangeRemovals sMs eMs s).content) =
      ⟨(processRangeRemovals sMs eMs s).content, 0⟩ := by
  show rangeRun sMs eMs ((processRangeRemovals sMs eMs s).content) 0 = _
  rw [rangeRun_unfold]
  cases hs : findEarliestLoop ((processRangeRemovals sMs eMs s).content) 0 none sMs with
  | none => rfl
  | some p =>
    rcases p with ⟨i, m⟩
    exfalso
    rcases findEarliest_some_facts hs with ⟨hmem, hb, _, hpref, _⟩
    exact range_out_no_occ sMs eMs s.length s 0 (le_refl _) i ⟨m, hmem, hb, hpref⟩

theorem take_eq_of_take_eq {s t : Str} {a n : Nat} (han : a ≤ n)
    (h : s.take n = t.take n) : s.take a = t.take a := by
  have h1 : (s.take n).take a = (t.take n).take a := by rw [h]
  rw [List.take_take, List.take_take, Nat.min_eq_left han] at h1
  exact h1

theorem prefAt_eq_of_take_eq {m s t : Str} {k n : Nat} (hkn : m.length + k ≤ n)
    (h : s.take n = t.take n) : prefAt m (s.drop k) = prefAt m (t.drop k) := by
  have h1 : (s.drop k).take (n - k) = (t.drop k).take (n - k) := by
    rw [← List.drop_take, ← List.drop_take, h]
  have hm : m.length ≤ n - k := by omega
  calc prefAt m (s.drop k) = prefAt m ((s.drop k).take (n - k)) := (prefAt_take hm).symm
    _ = prefAt m ((t.drop k).take (n - k)) := by rw [h1]
    _ = prefAt m (t.drop k) := prefAt_take hm

theorem ScanSkips_le {ms : List Str} {s : Str} {n : Nat} (h : ScanSkips ms s n) :
    n ≤ s.length := by
  cases h with
  | zero => exact Nat.zero_le _
  | skip a i j _ _ _ _ _ hoj _ _ =>
    have := occ_bound (by simp [ppDelim] : ppDelim ≠ []) hoj
    simp only [ppDelim, List.length_cons, List.length_nil] at this
    omega

theorem scanSkips_transport {ms : List Str} {s t : Str} {n : Nat}
    (h : ScanSkips ms s n) (heq : s.take n = t.take n) : ScanSkips ms t n := by
  induction h with
  | zero => exact ScanSkips.zero
  | skip a i j hder ha hoi hmi hij hoj hmj hno ih =>
    have hbj : j + 2 ≤ s.length := by
      have := occ_bound (by simp [ppDelim] : ppDelim ≠ []) hoj
      simp only [ppDelim, List.length_cons, List.length_nil] at this
      omega
    refine ScanSkips.skip a i j (ih (take_eq_of_take_eq (by omega) heq)) ha ?_ ?_ hij ?_ ?_ ?_
    · rw [← prefAt_eq_of_take_eq (by simp [ppDelim]; omega) heq]
      exact hoi
    · intro p hap hpi
      rw [← prefAt_eq_of_take_eq (by simp [ppDelim]; omega) heq]
      exact hmi p hap hpi
    · rw [← prefAt_eq_of_take_eq (by simp [ppDelim]; omega) heq]
      exact hoj
    · intro p hip hpj
      rw [← prefAt_eq_of_take_eq (by simp [ppDelim]; omega) heq]
      exact hmj p hip hpj
    · have hinner : (s.take j).drop (i + 2) = (t.take j).drop (i + 2) := by
        rw [← Nat.min_eq_left (show j ≤ j + 2 by omega), ← List.take_take,
          ← List.take_take, heq]
      rw [← hinner]
      exact hno

theorem indexOfFrom_eq_some_of {s pat : Str} {k i : Nat} (hpat : pat ≠ [])
    (hki : k ≤ i) (hocc : prefAt pat (s.drop i) = true)
    (hmin : ∀ p, k ≤ p → p < i → prefAt pat (s.drop p) = false) :
    indexOfFrom s pat k = some i := by
  rcases indexOfFrom_of_occ hpat hki hocc with ⟨j, hj, hle⟩
  rcases indexOfFrom_some hpat hj with ⟨hkj, hoccj, _⟩
  rcases Nat.lt_or_ge j i with hlt | hge
  · rw [hmin j hkj hlt] at hoccj
    cases hoccj
  · have : j = i := by omega
    rw [← this]
    exact hj

theorem indexOfFrom_eq_none_of {s pat : Str} {k : Nat} (hpat : pat ≠ [])
    (hno : ∀ p, k ≤ p → prefAt pat (s.drop p) = false) :
    indexOfFrom s pat k = none := by
  cases hx : indexOfFrom s pat k with
  | none => rfl
  | some j =>
    rcases indexOfFrom_some hpat hx with ⟨hkj, hocc, _⟩
    rw [hno j hkj] at hocc
    cases hocc

theorem scanSkips_replay {ms : List Str} {s : Str} {n : Nat}
    (h : ScanSkips ms s n) : ∀ r, commentRun ms s 0 r = commentRun ms s n r := by
  have hpp : ppDelim ≠ [] := by simp [ppDelim]
  induction h with
  | zero => intro r; rfl
  | skip a i j hder ha hoi hmi hij hoj hmj hno ih =>
    intro r
    rw [ih r]
    conv_lhs => rw [commentRun_unfold]
    have hbi : i + 2 ≤ s.length := by
      have := occ_bound hpp hoi
      simp only [ppDelim, List.length_cons, List.length_nil] at this
      omega
    rw [if_pos (by omega : a < s.length)]
    rw [indexOfFrom_eq_some_of hpp ha hoi hmi]
    dsimp only
    rw [indexOfFrom_eq_some_of hpp hij hoj hmj]
    dsimp only
    rw [if_neg (by rw [hno]; simp)]

theorem prefAt_pp_beyond {t : Str} {p : Nat} (hp : t.length ≤ p) :
    prefAt ppDelim (t.drop p) = false := by
  rw [List.drop_eq_nil_of_le hp]
  rfl

theorem pp_len_bound {s : Str} {i : Nat} (h : prefAt ppDelim (s.drop i) = true) :
    i + 2 ≤ s.length := by
  have := occ_bound (by simp [ppDelim] : ppDelim ≠ []) h
  simp only [ppDelim, List.length_cons, List.length_nil] at this
  omega

theorem comment_noop_none (ms : List Str) (s : Str) (a : Nat)
    (hsk : ScanSkips ms s a)
    (hgap : ∀ p, a ≤ p → prefAt ppDelim (s.drop p) = false) :
    processCommentCleaning ms s = ⟨s, 0⟩ := by
  have hpp : ppDelim ≠ [] := by simp [ppDelim]
  show commentRun ms s 0 0 = _
  rw [scanSkips_replay hsk 0, commentRun_unfold]
  by_cases ha : a < s.length
  · rw [if_pos ha, indexOfFrom_eq_none_of hpp (fun p hp => hgap p hp)]
  · rw [if_neg ha]

theorem comment_noop_unterm (ms : List Str) (s : Str) (a i : Nat)
    (hsk : ScanSkips ms s a) (hai : a ≤ i)
    (hgapi : ∀ p, a ≤ p → p < i → prefAt ppDelim (s.drop p) = false)
    (hoi : prefAt ppDelim (s.drop i) = true)
    (hnone : ∀ p, i + 2 ≤ p → prefAt ppDelim (s.drop p) = false) :
    processCommentCleaning ms s = ⟨s, 0⟩ := by
  have hpp : ppDelim ≠ [] := by simp [ppDelim]
  show commentRun ms s 0 0 = _
  rw [scanSkips_replay hsk 0, commentRun_unfold]
  have hbi := pp_len_bound hoi
  rw [if_pos (by omega : a < s.length)]
  rw [indexOfFrom_eq_some_of hpp hai hoi hgapi]
  dsimp only
  rw [indexOfFrom_eq_none_of hpp hnone]

theorem comment_selfclean (ms : List Str) :
    ∀ n (s : Str) (sp r : Nat), s.length - sp ≤ n →
      ∀ a, a ≤ sp → ScanSkips ms s a →
      (∀ p, a ≤ p → p < sp → prefAt ppDelim (s.drop p) = false) →
      processCommentCleaning ms ((commentRun ms s sp r).content) =
        ⟨(commentRun ms s sp r).content, 0⟩ := by
  intro n
  have hpp : ppDelim ≠ [] := by simp [ppDelim]
  induction n with
  | zero =>
    intro s sp r hn a hasp hsk hgap
    rw [commentRun_unfold, if_neg (by omega : ¬ sp < s.length)]
    exact comment_noop_none ms s a hsk (fun p hap => by
      by_cases hplen : s.length ≤ p
      · exact prefAt_pp_beyond hplen
      · exact hgap p hap (by omega))
  | succ n ih =>
    intro s sp r hn a hasp hsk hgap
    rw [commentRun_unfold]
    by_cases hsp : sp < s.length
    · rw [if_pos hsp]
      cases hi : indexOfFrom s ppDelim sp with
      | none =>
        exact comment_noop_none ms s a hsk (fun p hap => by
          by_cases hpsp : p < sp
          · exact hgap p hap hpsp
          · exact indexOfFrom_none hpp hi p (by omega))
      | some i =>
        dsimp only
        rcases indexOfFrom_some hpp hi with ⟨hspi, hoi, hmini⟩
        have hbi := pp_len_bound hoi
        have hgapi : ∀ p, a ≤ p → p < i → prefAt ppDelim (s.drop p) = false := by
          intro p hap hpi
          by_cases hpsp : p < sp
          · exact hgap p hap hpsp
          · exact hmini p (by omega) hpi
        cases hj : indexOfFrom s ppDelim (i + 2) with
        | none =>
          dsimp only
          exact comment_noop_unterm ms s a i hsk (by omega) hgapi hoi
            (indexOfFrom_none hpp hj)
        | some j =>
          dsimp only
          rcases indexOfFrom_some hpp hj with ⟨hij, hoj, hminj⟩
          have hbj := pp_len_bound hoj
          by_cases hrm : shouldRemoveComment ms ((s.take j).drop (i + 2))
          · rw [if_pos hrm]
            have htakei : (s.take i ++ s.drop (j + 2)).take i = s.take i := by
              rw [List.take_append_of_le_length (by rw [List.length_take]; omega),
                List.take_take, Nat.min_self]
            have hska : ScanSkips ms (s.take i ++ s.drop (j + 2)) a :=
              scanSkips_transport hsk
                (take_eq_of_take_eq (by omega : a ≤ i) htakei.symm)
            have hgap' : ∀ p, a ≤ p → p < i →
                prefAt ppDelim ((s.take i ++ s.drop (j + 2)).drop p) = false := by
              intro p hap hpi
              by_cases hp2 : p + 2 ≤ i
              · rw [← prefAt_eq_of_take_eq
                  (show ppDelim.length + p ≤ i by simp [ppDelim]; omega) htakei.symm]
                exact hgapi p hap hpi
              · have hi1 : 1 ≤ i := by omega
                have hpeq : p = i - 1 := by omega
                subst hpeq
                have hilen : i - 1 < s.length := by omega
                have hdrop1 : s.drop (i - 1) = s[i - 1] :: s.drop i := by
                  have h0 := List.drop_eq_getElem_cons hilen
                  rwa [show i - 1 + 1 = i by omega] at h0
                have hfalse : prefAt ppDelim (s.drop (i - 1)) = false :=
                  hgapi (i - 1) (by omega) (by omega)
                rcases (prefAt_iff ppDelim (s.drop i)).1 hoi with ⟨w, hw⟩
                have hcne : ¬ ('%' = s[i - 1]) := by
                  intro hc
                  rw [hdrop1, ← hw, ← hc] at hfalse
                  simp [ppDelim, prefAt] at hfalse
                have hdrop1t : (s.take i).drop (i - 1) = [s[i - 1]] := by
                  rw [List.drop_take, hdrop1, show i - (i - 1) = 1 by omega]
                  rfl
                have hsdrop : (s.take i ++ s.drop (j + 2)).drop (i - 1) =
                    s[i - 1] :: s.drop (j + 2) := by
                  rw [List.drop_append_of_le_length
                    (by rw [List.length_take]; omega), hdrop1t]
                  rfl
                rw [hsdrop]
                simp [ppDelim, prefAt, hcne]
            have hlen' : (s.take i ++ s.drop (j + 2)).length - i ≤ n := by
              rw [List.length_append, List.length_take, List.length_drop]
              omega
            exact ih (s.take i ++ s.drop (j + 2)) i (r + 1) hlen' a (by omega)
              hska hgap'
          · rw [if_neg hrm]
            have hsk' : ScanSkips ms s (j + 2) :=
              ScanSkips.skip a i j hsk (by omega) hoi hgapi hij hoj hminj
                (Bool.eq_false_iff.2 hrm)
            exact ih s (j + 2) r (by omega) (j + 2) (le_refl _) hsk'
              (fun p h1 h2 => absurd h2 (by omega))
    · rw [if_neg hsp]
      exact comment_noop_none ms s a hsk (fun p hap => by
        by_cases hplen : s.length ≤ p
        · exact prefAt_pp_beyond hplen
        · exact hgap p hap (by omega))

theorem comment_idem (ms : List Str) (s : Str) :
    processCommentCleaning ms ((processCommentCleaning ms s).content) =
      ⟨(processCommentCleaning ms s).content, 0⟩ :=
  comment_selfclean ms s.length s 0 0 (by omega) 0 (le_refl 0) ScanSkips.zero
    (fun p h1 h2 => absurd h2 (by omega))

end Lemmas

theorem shouldRemoveComment_iff (ms : List Str) (inner : Str) :
    shouldRemoveComment ms inner = true ↔
      ∃ m, m ∈ ms ∧ blankStr m = false ∧ ∃ u v, u ++ m ++ v = inner := by
  unfold shouldRemoveComment
  rw [List.any_eq_true]
  constructor
  · rintro ⟨m, hm, hp⟩
    simp only [Bool.and_eq_true, Bool.not_eq_true'] at hp
    exact ⟨m, hm, hp.1, (containsStr_iff inner m).1 hp.2⟩
  · rintro ⟨m, hm, hb, hsub⟩
    refine ⟨m, hm, ?_⟩
    simp [hb, (containsStr_iff inner m).2 hsub]

theorem shouldCleanLine_iff (ms : List Str) (l : Str) :
    shouldCleanLine ms l = true ↔
      ∃ m ∈ ms, blankStr m = false ∧ containsStr l m = true := by
  unfold shouldCleanLine
  rw [List.any_eq_true]
  constructor
  · rintro ⟨m, hm, hp⟩
    simp only [Bool.and_eq_true, Bool.not_eq_true'] at hp
    exact ⟨m, hm, hp.1, hp.2⟩
  · rintro ⟨m, hm, hb, hc⟩
    exact ⟨m, hm, by simp [hb, hc]⟩

theorem linkLines_fst_map (ms : List Str) (lines : List Str) :
    (linkLines ms lines).1 = lines.map (linkLineSpec ms) := by
  induction lines with
  | nil => rfl
  | cons l ls ih =>
    simp only [linkLines, List.map_cons]
    by_cases hc : shouldCleanLine ms l
    · rw [if_pos hc]
      simp only
      rw [ih]
      congr 1
      unfold linkLineSpec
      rw [if_pos ((shouldCleanLine_iff ms l).1 hc)]
      rfl
    · rw [if_neg hc]
      simp only
      rw [ih]
      congr 1
      unfold linkLineSpec
      rw [if_neg (fun hex => hc ((shouldCleanLine_iff ms l).2 hex))]

theorem wikiMatchAt_eq (rest : Str) : wikiMatchAt ('[' :: '[' :: rest) =
    (let g1 := rest.takeWhile (fun c => !(c == ']' || c == '|'))
     if g1 = [] then none
     else
       match rest.drop g1.length with
       | '|' :: r2 =>
         let g2 := r2.takeWhile (fun c => !(c == ']'))
         if g2 = [] then none
         else
           match r2.drop g2.length with
           | ']' :: ']' :: _ =>
             some (2 + g1.length + 1 + g2.length + 2, btick :: (g2 ++ [btick]))
           | _ => none
       | ']' :: ']' :: _ => some (2 + g1.length + 2, btick :: (g1 ++ [btick]))
       | _ => none) := rfl

theorem extMatchAt_eq (rest : Str) : extMatchAt ('[' :: rest) =
    (let g1 := rest.takeWhile (fun c => !(c == ']'))
     if g1 = [] then none
     else
       match rest.drop g1.length with
       | ']' :: '(' :: r2 =>
         let g2 := r2.takeWhile (fun c => !(c == ')'))
         if g2 = [] then none
         else
           match r2.drop g2.length with
           | ')' :: _ => some (1 + g1.length + 2 + g2.length + 1, btick :: (g1 ++ [btick]))
           | _ => none
       | _ => none) := rfl

theorem takeWhile_all_cons_false {p : Char → Bool} (xs : Str) (y : Char)
    (hxs : ∀ c ∈ xs, p c = true) (hy : p y = false) (rest : Str) :
    (xs ++ y :: rest).takeWhile p = xs := by
  induction xs with
  | nil => simp [List.takeWhile, hy]
  | cons a tl ih =>
    simp only [List.cons_append, List.takeWhile_cons]
    rw [hxs a (List.mem_cons_self _ _)]
    simp only [if_true]
    rw [ih (fun c hc => hxs c (List.mem_cons_of_mem _ hc))]

section Claims

/-- Claim C3: the pipeline orchestrator applies exactly the enabled stages in
the fixed order Range Remover, Comment Scrubber, Link Rewriter, Single-Line
Removal, Empty List Item Removal, Finished Task Removal, Empty-Run Limiter,
feeding each stage the previous stage's output; disabled stages leave text
and count unaffected; the returned removals is the sum of the enabled
stages' removals; and the changed/unchanged decision exposed to the caller
holds exactly when the final text differs from the original input. -/
theorem c3_pipeline_orchestrator (cfg : LineCleanerSettings) (s : Str) :
    processContent cfg s = runPipeline (pipelineStages cfg) s ∧
    (contentChanged cfg s = true ↔ (processContent cfg s).content ≠ s) := by
  constructor
  · rfl
  · simp [contentChanged]

/-- Claim C4 is false on the code: with start markers `["ab", "abc"]`, both
non-blank and both with earliest occurrence at offset 0 of `"abcQc"`, the
Range Remover's start search selects `"ab"` — the FIRST marker in iteration
order, not the last — and consequently deletes through the `"c"` at offset
2, leaving `"Qc"` (last-marker selection would have consumed everything). -/
theorem c4_counterexample :
    findEarliestLoop (strLit "abcQc") 0 none [strLit "ab", strLit "abc"] =
      some (0, strLit "ab") ∧
    indexOfFrom (strLit "abcQc") (strLit "ab") 0 = some 0 ∧
    indexOfFrom (strLit "abcQc") (strLit "abc") 0 = some 0 ∧
    processRangeRemovals [strLit "ab", strLit "abc"] [strLit "c"] (strLit "abcQc") =
      ⟨strLit "Qc", 1⟩ ∧
    strLit "ab" ≠ strLit "abc" := by
  refine ⟨by decide, by decide, by decide, by decide, by decide⟩

/-- Claim C4 (amended): when several non-blank configured start markers have
their earliest occurrence at the same smallest offset, the Range Remover's
marker search selects the FIRST such marker in the configured iteration
order, because a later candidate overwrites the current one only with a
strictly earlier index. -/
theorem c4_range_tie_breaks_to_first (s : Str) (ms : List Str) (k i : Nat) (m : Str)
    (h : findEarliestLoop s k none ms = some (i, m)) :
    ms.find? (fun x => !blankStr x && (indexOfFrom s x k == some i)) = some m :=
  findEarliest_first h

/-- Witness for C4 (amended) at a concrete tied input. -/
theorem c4_range_tie_breaks_to_first_witness :
    (findEarliestLoop (strLit "abc") 0 none [strLit "ab", strLit "abc"] =
      some (0, strLit "ab")) ∧
    [strLit "ab", strLit "abc"].find?
      (fun x => !blankStr x && (indexOfFrom (strLit "abc") x 0 == some 0)) =
      some (strLit "ab") :=
  ⟨by decide, c4_range_tie_breaks_to_first (strLit "abc") [strLit "ab", strLit "abc"]
    0 0 (strLit "ab") (by decide)⟩

/-- Claim C5 is false on the code: the single line `"ab"` contains both
configured markers `"a"` and `"b"`, yet `removals` comes out 1, not the 2
that double-counting would give — the second pass runs on the already
filtered line list, so the line is gone before the second marker's pass. -/
theorem c5_counterexample :
    processSingleLineRemovals [strLit "a", strLit "b"] (strLit "ab") = ⟨[], 1⟩ ∧
    (processSingleLineRemovals [strLit "a", strLit "b"] (strLit "ab")).removals ≠ 2 := by
  refine ⟨by decide, by decide⟩

/-- Claim C5 (amended): Single-Line Removal applies one sequential pass per
non-blank configured marker, each pass removing every REMAINING line that
contains that marker as a substring (so the survivors are exactly the lines
containing no non-blank marker), and its removals is the sum over passes of
the lines deleted; since later passes see only the already-filtered lines, a
line containing two configured markers is deleted and counted exactly once —
total removals plus surviving lines equals the original line count. -/
theorem c5_single_line_passes (ms : List Str) (s : Str) :
    processSingleLineRemovals ms s =
      ⟨joinNl ((splitNl s).filter
         (fun l => ms.all (fun m => blankStr m || !containsStr l m))),
       (singleLinePasses (splitNl s) ms).2⟩ ∧
    (singleLinePasses (splitNl s) ms).2 +
      ((splitNl s).filter
        (fun l => ms.all (fun m => blankStr m || !containsStr l m))).length =
      (splitNl s).length := by
  constructor
  · show (⟨joinNl (singleLinePasses (splitNl s) ms).1,
      (singleLinePasses (splitNl s) ms).2⟩ : StageResult) = _
    rw [singleLinePasses_fst]
  · rw [← singleLinePasses_fst]
    exact singleLinePasses_conserve _ _

/-- Claim C7 is false on the code: on the documented example the Comment
Scrubber's output keeps the space that preceded the deleted comment —
`substring(0, startIndex)` ends with `"has "` — so the result is not the
claimed `"This text %% keep %% has"`. -/
theorem c7_counterexample :
    (processCommentCleaning [strLit "remove this comment"]
      (strLit "This text %% keep %% has %% remove this comment %%")).content ≠
      strLit "This text %% keep %% has" := by decide

/-- Claim C7 (amended): on the input
`"This text %% keep %% has %% remove this comment %%"` with the single
marker `"remove this comment"`, the Comment Scrubber deletes only the marked
comment (the sibling `%% keep %%` is untouched) and returns
`"This text %% keep %% has "` — with a trailing space — and one removal. -/
theorem c7_comment_scrubber_example :
    processCommentCleaning [strLit "remove this comment"]
      (strLit "This text %% keep %% has %% remove this comment %%") =
      ⟨strLit "This text %% keep %% has ", 1⟩ := by decide

/-- Claim C8: every marker-based stage (Range Remover, Comment Scrubber,
Link Rewriter, Single-Line Removal) whose configured marker set consists
only of blank (whitespace-only after trimming) markers returns the input
unchanged with zero removals, for arbitrary input text. -/
theorem c8_blank_markers_noop (sMs eMs cms lms rms : List Str) (s : Str)
    (hs : ∀ m ∈ sMs, blankStr m = true) (hc : ∀ m ∈ cms, blankStr m = true)
    (hl : ∀ m ∈ lms, blankStr m = true) (hr : ∀ m ∈ rms, blankStr m = true) :
    processRangeRemovals sMs eMs s = ⟨s, 0⟩ ∧
    processCommentCleaning cms s = ⟨s, 0⟩ ∧
    processLinkCleaning lms s = ⟨s, 0⟩ ∧
    processSingleLineRemovals rms s = ⟨s, 0⟩ := by
  refine ⟨?_, ?_, ?_, ?_⟩
  · show rangeLoopF sMs eMs (s.length + 1) s 0 = ⟨s, 0⟩
    simp only [rangeLoopF]
    rw [show findEarliestLoop s 0 none sMs = none from by
      rw [findEarliestLoop_eq_merge]; exact findEarliestSpec_all_blank hs]
  · exact commentLoopF_all_blank hc _ s 0 0
  · show (⟨joinNl (linkLines lms (splitNl s)).1,
      (linkLines lms (splitNl s)).2⟩ : StageResult) = ⟨s, 0⟩
    rw [linkLines_all_blank hl]
    simp [joinNl_splitNl]
  · show (⟨joinNl (singleLinePasses (splitNl s) rms).1,
      (singleLinePasses (splitNl s) rms).2⟩ : StageResult) = ⟨s, 0⟩
    rw [singleLinePasses_all_blank hr]
    simp [joinNl_splitNl]

/-- Witness for C8 at a concrete blank-marker configuration. -/
theorem c8_blank_markers_noop_witness :
    processRangeRemovals [([] : Str)] [([] : Str)] (strLit "a %% b") =
      ⟨strLit "a %% b", 0⟩ ∧
    processCommentCleaning [([] : Str)] (strLit "a %% b") = ⟨strLit "a %% b", 0⟩ ∧
    processLinkCleaning [([] : Str)] (strLit "a %% b") = ⟨strLit "a %% b", 0⟩ ∧
    processSingleLineRemovals [([] : Str)] (strLit "a %% b") = ⟨strLit "a %% b", 0⟩ :=
  c8_blank_markers_noop [[]] [[]] [[]] [[]] [[]] (strLit "a %% b")
    (by decide) (by decide) (by decide) (by decide)

/-- Claim C10: for each of the seven stage functions, a removal count of
zero implies the returned content is exactly the input string. -/
theorem c10_zero_removals_unchanged (sMs eMs cms lms rms : List Str)
    (maxC : Nat) (s : Str) :
    ((processRangeRemovals sMs eMs s).removals = 0 →
      (processRangeRemovals sMs eMs s).content = s) ∧
    ((processCommentCleaning cms s).removals = 0 →
      (processCommentCleaning cms s).content = s) ∧
    ((processLinkCleaning lms s).removals = 0 →
      (processLinkCleaning lms s).content = s) ∧
    ((processSingleLineRemovals rms s).removals = 0 →
      (processSingleLineRemovals rms s).content = s) ∧
    ((processEmptyListItemRemoval s).removals = 0 →
      (processEmptyListItemRemoval s).content = s) ∧
    ((processFinishedTasksRemoval s).removals = 0 →
      (processFinishedTasksRemoval s).content = s) ∧
    ((processEmptyLineLimiting maxC s).removals = 0 →
      (processEmptyLineLimiting maxC s).content = s) := by
  refine ⟨?_, ?_, ?_, ?_, ?_, ?_, ?_⟩
  · intro h
    have heta : rangeLoopF sMs eMs (s.length + 1) s 0 =
        ⟨(processRangeRemovals sMs eMs s).content,
         (processRangeRemovals sMs eMs s).removals⟩ := rfl
    rw [h] at heta
    exact rangeLoopF_zero_eq sMs eMs (s.length + 1) s 0 _ heta
  · intro h
    have heta : commentLoopF cms (s.length + 1) s 0 0 =
        ⟨(processCommentCleaning cms s).content,
         (processCommentCleaning cms s).removals⟩ := rfl
    rw [h] at heta
    exact commentLoopF_zero_eq cms (s.length + 1) s 0 0 _ heta
  · intro h
    show joinNl (linkLines lms (splitNl s)).1 = s
    rw [linkLines_zero (splitNl s) h, joinNl_splitNl]
  · intro h
    show joinNl (singleLinePasses (splitNl s) rms).1 = s
    rw [singleLinePasses_zero h, joinNl_splitNl]
  · intro h
    show joinNl ((splitNl s).filter (fun l => !isEmptyListItem (jsTrim l))) = s
    rw [filter_len_zero h, joinNl_splitNl]
  · intro h
    show joinNl ((splitNl s).filter (fun l => !isFinishedTask (jsTrim l))) = s
    rw [filter_len_zero h, joinNl_splitNl]
  · intro h
    show joinNl (emptyLimitLoop maxC (splitNl s) 0).1 = s
    rw [emptyLimitLoop_zero maxC (splitNl s) 0 h, joinNl_splitNl]

/-- Witness for C10 at a concrete input where every stage reports zero. -/
theorem c10_zero_removals_unchanged_witness :
    (processRangeRemovals [] [] (strLit "a")).content = strLit "a" ∧
    (processCommentCleaning [] (strLit "a")).content = strLit "a" ∧
    (processLinkCleaning [] (strLit "a")).content = strLit "a" ∧
    (processSingleLineRemovals [] (strLit "a")).content = strLit "a" ∧
    (processEmptyListItemRemoval (strLit "a")).content = strLit "a" ∧
    (processFinishedTasksRemoval (strLit "a")).content = strLit "a" ∧
    (processEmptyLineLimiting 0 (strLit "a")).content = strLit "a" := by
  have h := c10_zero_removals_unchanged [] [] [] [] [] 0 (strLit "a")
  exact ⟨h.1 (by decide), h.2.1 (by decide), h.2.2.1 (by decide),
    h.2.2.2.1 (by decide), h.2.2.2.2.1 (by decide),
    h.2.2.2.2.2.1 (by decide), h.2.2.2.2.2.2 (by decide)⟩

/-- Claim C1: for every input and configuration, the Range Remover run
satisfies the claim-side description `RangeRun`: it repeatedly locates the
textually-earliest occurrence of a non-blank configured start marker and the
earliest occurrence of a non-blank configured end marker at or after that
start marker's end, deletes the span from the start marker's first character
through the matched end marker's last character inclusive while preserving
the surrounding text verbatim (`take i ++ drop (j + |em|)`), and counts one
removal per deleted range; when a start marker is found but no end marker
occurs after it, it deletes from the start marker to the end of the
document, counts one removal, and stops. -/
theorem c1_range_remover (sMs eMs : List Str) (s : Str) :
    RangeRun sMs eMs s 0 (processRangeRemovals sMs eMs s) := by
  suffices h : ∀ n (t : Str) (r : Nat), t.length ≤ n →
      RangeRun sMs eMs t r (rangeRun sMs eMs t r) by
    exact h s.length s 0 (le_refl _)
  intro n
  induction n with
  | zero =>
    intro t r hn
    rw [rangeRun_unfold]
    cases hs : findEarliestLoop t 0 none sMs with
    | none => exact RangeRun.done t r (fun i => findEarliest_none_no_occ hs i (Nat.zero_le i))
    | some p =>
      rcases p with ⟨i, m⟩
      exfalso
      rcases findEarliest_some_facts hs with ⟨hmem, hb, _, hpref, _⟩
      have hocc := occ_bound (blankStr_ne_nil hb) hpref
      have hml : 0 < m.length := List.length_pos.2 (blankStr_ne_nil hb)
      omega
  | succ n ih =>
    intro t r hn
    rw [rangeRun_unfold]
    cases hs : findEarliestLoop t 0 none sMs with
    | none => exact RangeRun.done t r (fun i => findEarliest_none_no_occ hs i (Nat.zero_le i))
    | some p =>
      rcases p with ⟨i, m⟩
      dsimp only
      cases he : findEarliestLoop t (i + m.length) none eMs with
      | none =>
        rcases findEarliest_some_facts hs with ⟨hmem, hb, _, hpref, hmin⟩
        exact RangeRun.toEnd t r i m hmem hb hpref
          (fun i' hi' => hmin i' (Nat.zero_le i') hi')
          (fun j hj => findEarliest_none_no_occ he j hj)
      | some q =>
        rcases q with ⟨j, em⟩
        rcases findEarliest_some_facts hs with ⟨hmem, hb, _, hpref, hmin⟩
        rcases findEarliest_some_facts he with ⟨hemem, heb, hkj, hepref, hemin⟩
        have hlt := rangeStep_shorter hs he
        exact RangeRun.step t r i m j em _ hmem hb hpref
          (fun i' hi' => hmin i' (Nat.zero_le i') hi')
          hemem heb hkj hepref
          (fun j' hj1 hj2 => hemin j' hj1 hj2)
          (ih _ (r + 1) (by omega))

/-- Claim C2: for every input, the Comment Scrubber run satisfies the
claim-side description `CommentRun`: it pairs each occurrence of the literal
delimiter `%%` with the next occurrence of `%%`; when the inner text
strictly between the pair contains some non-blank configured marker as a
substring, it deletes the whole span including both delimiters, counts one
removal, and resumes scanning from the deleted span's original start offset;
when no marker matches it resumes immediately after the closing delimiter,
leaving the comment intact; and when an opening `%%` has no closing `%%`
after it, scanning stops with the unterminated text untouched. -/
theorem c2_comment_scrubber (ms : List Str) (s : Str) :
    CommentRun ms s 0 0 (processCommentCleaning ms s) := by
  suffices h : ∀ n (t : Str) (sp r : Nat), t.length - sp ≤ n →
      CommentRun ms t sp r (commentRun ms t sp r) by
    exact h s.length s 0 0 (by omega)
  intro n
  have hpp : ppDelim ≠ [] := by simp [ppDelim]
  induction n with
  | zero =>
    intro t sp r hn
    rw [commentRun_unfold]
    rw [if_neg (by omega)]
    exact CommentRun.stop t sp r (fun p hp => prefAt_pp_beyond (by omega))
  | succ n ih =>
    intro t sp r hn
    rw [commentRun_unfold]
    by_cases hsp : sp < t.length
    · rw [if_pos hsp]
      cases hi : indexOfFrom t ppDelim sp with
      | none =>
        exact CommentRun.stop t sp r (indexOfFrom_none hpp hi)
      | some i =>
        dsimp only
        rcases indexOfFrom_some hpp hi with ⟨hspi, hoi, hmini⟩
        have hbi := occ_bound hpp hoi
        simp only [ppDelim, List.length_cons, List.length_nil] at hbi
        cases hj : indexOfFrom t ppDelim (i + 2) with
        | none =>
          refine CommentRun.unterminated t sp r i hspi hoi hmini ?_
          have := indexOfFrom_none hpp hj
          intro p hp
          exact this p hp
        | some j =>
          dsimp only
          rcases indexOfFrom_some hpp hj with ⟨hij, hoj, hminj⟩
          have hbj := occ_bound hpp hoj
          simp only [ppDelim, List.length_cons, List.length_nil] at hbj
          by_cases hrm : shouldRemoveComment ms ((t.take j).drop (i + 2))
          · rw [if_pos hrm]
            refine CommentRun.remove t sp r i j _ hspi hoi hmini hij hoj hminj
              ((shouldRemoveComment_iff ms _).1 hrm) ?_
            apply ih
            rw [List.length_append, List.length_take, List.length_drop]
            omega
          · rw [if_neg hrm]
            refine CommentRun.keep t sp r i j _ hspi hoi hmini hij hoj hminj
              (fun hex => (by simp [(shouldRemoveComment_iff ms _).2 hex] at hrm)) ?_
            exact ih t (j + 2) r (by omega)
    · rw [if_neg hsp]
      exact CommentRun.stop t sp r (fun p hp => prefAt_pp_beyond (by omega))

/-- Claim C6: the Link Rewriter processes the document line by line.  A line
containing no non-blank configured marker is passed through completely
unmodified (including any link syntax); a line containing a marker has every
`[[target]]` / `[[target|display]]` reference replaced by the display text
(or the target when no display is given) wrapped in backticks, then every
`[text](url)` reference replaced by the text wrapped in backticks, and
afterwards every occurrence of every configured marker deleted from the line
with the marker treated as literal text.  Eligibility is substring
containment of a marker. -/
theorem c6_link_rewriter (ms : List Str) (s : Str) :
    processLinkCleaning ms s =
      ⟨joinNl ((splitNl s).map (linkLineSpec ms)), (linkLines ms (splitNl s)).2⟩ ∧
    (∀ l : Str, (¬ ∃ m ∈ ms, blankStr m = false ∧ containsStr l m = true) →
      linkLineSpec ms l = l) ∧
    (∀ l : Str, (∃ m ∈ ms, blankStr m = false ∧ containsStr l m = true) →
      linkLineSpec ms l =
        removeMarkers ms (replaceScanF extMatchAt
          (replaceScanF wikiMatchAt l.length l).length
          (replaceScanF wikiMatchAt l.length l))) ∧
    (∀ l m : Str, containsStr l m = true ↔ ∃ u v, u ++ m ++ v = l) ∧
    (∀ target rest : Str, target ≠ [] →
      (∀ c ∈ target, (c == ']' || c == '|') = false) →
      wikiMatchAt ('[' :: '[' :: (target ++ ']' :: ']' :: rest)) =
        some (2 + target.length + 2, btick :: (target ++ [btick]))) ∧
    (∀ target display rest : Str, target ≠ [] → display ≠ [] →
      (∀ c ∈ target, (c == ']' || c == '|') = false) →
      (∀ c ∈ display, (c == ']') = false) →
      wikiMatchAt ('[' :: '[' :: (target ++ '|' :: (display ++ ']' :: ']' :: rest))) =
        some (2 + target.length + 1 + display.length + 2,
              btick :: (display ++ [btick]))) ∧
    (∀ text url rest : Str, text ≠ [] → url ≠ [] →
      (∀ c ∈ text, (c == ']') = false) → (∀ c ∈ url, (c == ')') = false) →
      extMatchAt ('[' :: (text ++ ']' :: '(' :: (url ++ ')' :: rest))) =
        some (1 + text.length + 2 + url.length + 1, btick :: (text ++ [btick]))) := by
  refine ⟨?_, ?_, ?_, ?_, ?_, ?_, ?_⟩
  · show (⟨joinNl (linkLines ms (splitNl s)).1, (linkLines ms (splitNl s)).2⟩ :
      StageResult) = _
    rw [linkLines_fst_map]
  · intro l hno
    unfold linkLineSpec
    rw [if_neg hno]
  · intro l hyes
    unfold linkLineSpec
    rw [if_pos hyes]
  · intro l m
    exact containsStr_iff l m
  · intro target rest hne hcs
    rw [wikiMatchAt_eq]
    dsimp only
    have ht : (target ++ ']' :: ']' :: rest).takeWhile
        (fun c => !(c == ']' || c == '|')) = target :=
      takeWhile_all_cons_false target ']' (fun c hc => by simp [hcs c hc]) (by simp) _
    rw [ht, if_neg hne, List.drop_left]
    rfl
  · intro target display rest hnt hnd hcs hds
    rw [wikiMatchAt_eq]
    dsimp only
    have hallt : ∀ c ∈ target, (!(c == ']' || c == '|')) = true :=
      fun c hc => by simp [hcs c hc]
    have ht : (target ++ '|' :: (display ++ ']' :: ']' :: rest)).takeWhile
        (fun c => !(c == ']' || c == '|')) = target :=
      takeWhile_all_cons_false target '|' hallt (by simp)
        (display ++ ']' :: ']' :: rest)
    rw [ht, if_neg hnt, List.drop_left]
    show (if List.takeWhile (fun c => !(c == ']')) (display ++ ']' :: ']' :: rest) = []
        then none
        else
          match List.drop
              (List.takeWhile (fun c => !(c == ']'))
                (display ++ ']' :: ']' :: rest)).length
              (display ++ ']' :: ']' :: rest) with
          | ']' :: ']' :: _ =>
            some (2 + target.length + 1 +
                (List.takeWhile (fun c => !(c == ']'))
                  (display ++ ']' :: ']' :: rest)).length + 2,
              btick :: (List.takeWhile (fun c => !(c == ']'))
                (display ++ ']' :: ']' :: rest) ++ [btick]))
          | _ => none) = _
    have halld : ∀ c ∈ display, (!(c == ']')) = true :=
      fun c hc => by simp [hds c hc]
    have hd : (display ++ ']' :: ']' :: rest).takeWhile (fun c => !(c == ']')) =
        display :=
      takeWhile_all_cons_false display ']' halld (by simp) _
    rw [hd, if_neg hnd, List.drop_left]
    rfl
  · intro text url rest hnt hnu hts hus
    rw [extMatchAt_eq]
    dsimp only
    have hallt : ∀ c ∈ text, (!(c == ']')) = true :=
      fun c hc => by simp [hts c hc]
    have ht : (text ++ ']' :: '(' :: (url ++ ')' :: rest)).takeWhile
        (fun c => !(c == ']')) = text :=
      takeWhile_all_cons_false text ']' hallt (by simp)
        ('(' :: (url ++ ')' :: rest))
    rw [ht, if_neg hnt, List.drop_left]
    show (if List.takeWhile (fun c => !(c == ')')) (url ++ ')' :: rest) = []
        then none
        else
          match List.drop
              (List.takeWhile (fun c => !(c == ')')) (url ++ ')' :: rest)).length
              (url ++ ')' :: rest) with
          | ')' :: _ =>
            some (1 + text.length + 2 +
                (List.takeWhile (fun c => !(c == ')')) (url ++ ')' :: rest)).length + 1,
              btick :: (text ++ [btick]))
          | _ => none) = _
    have hallu : ∀ c ∈ url, (!(c == ')')) = true :=
      fun c hc => by simp [hus c hc]
    have hu : (url ++ ')' :: rest).takeWhile (fun c => !(c == ')')) = url :=
      takeWhile_all_cons_false url ')' hallu (by simp) _
    rw [hu, if_neg hnu, List.drop_left]
    rfl

/-- Witness for C6 at concrete inputs: the spec example line, an unmarked
line with link syntax left untouched, and the three regex-match shapes. -/
theorem c6_link_rewriter_witness :
    processLinkCleaning [strLit "%% clean me %%"]
      (strLit "Check [[My Note]] and [Google](https://google.com) %% clean me %%") =
      ⟨joinNl ((splitNl (strLit "Check [[My Note]] and [Google](https://google.com) %% clean me %%")).map
        (linkLineSpec [strLit "%% clean me %%"])),
       (linkLines [strLit "%% clean me %%"]
        (splitNl (strLit "Check [[My Note]] and [Google](https://google.com) %% clean me %%"))).2⟩ ∧
    linkLineSpec [strLit "%% clean me %%"] (strLit "see [[A]]") = strLit "see [[A]]" ∧
    wikiMatchAt (strLit "[[My Note]] tail") =
      some (11, btick :: (strLit "My Note" ++ [btick])) := by
  have h := c6_link_rewriter [strLit "%% clean me %%"]
    (strLit "Check [[My Note]] and [Google](https://google.com) %% clean me %%")
  refine ⟨h.1, h.2.1 (strLit "see [[A]]") (by decide), ?_⟩
  have hw := h.2.2.2.2.1 (strLit "My Note") (strLit " tail") (by decide) (by decide)
  exact hw

/-- Claim C9 is false on the code for the Empty-Run Limiter: with
`maxConsecutiveEmptyLines = 0` and the empty document, the limiter returns
the empty text with one removal, and applying it a second time to its own
output again reports one removal (the split of the empty string yields one
blank line, which is dropped again), so the second application does not
return zero removals. -/
theorem c9_counterexample :
    processEmptyLineLimiting 0 ((processEmptyLineLimiting 0 (strLit "")).content) =
      ⟨strLit "", 1⟩ ∧
    (processEmptyLineLimiting 0
      ((processEmptyLineLimiting 0 (strLit "")).content)).removals ≠ 0 := by
  refine ⟨by decide, by decide⟩

/-- Claim C9 (amended): the Range Remover, the Comment Scrubber, and the
three line filters (single-line removal, empty list item removal, finished
task removal) are idempotent — applying the stage a second time to its own
output returns that output unchanged with zero removals.  The Empty-Run
Limiter reapplied also returns its output text unchanged, with zero
removals except in the single case `maxConsecutiveEmptyLines = 0` with an
all-blank input document, where the output is empty and the second
application reports one removal on the unchanged empty text. -/
theorem c9_stage_idempotence (sMs eMs cms rms : List Str) (maxC : Nat) (s : Str) :
    processRangeRemovals sMs eMs ((processRangeRemovals sMs eMs s).content) =
      ⟨(processRangeRemovals sMs eMs s).content, 0⟩ ∧
    processCommentCleaning cms ((processCommentCleaning cms s).content) =
      ⟨(processCommentCleaning cms s).content, 0⟩ ∧
    processSingleLineRemovals rms ((processSingleLineRemovals rms s).content) =
      ⟨(processSingleLineRemovals rms s).content, 0⟩ ∧
    processEmptyListItemRemoval ((processEmptyListItemRemoval s).content) =
      ⟨(processEmptyListItemRemoval s).content, 0⟩ ∧
    processFinishedTasksRemoval ((processFinishedTasksRemoval s).content) =
      ⟨(processFinishedTasksRemoval s).content, 0⟩ ∧
    processEmptyLineLimiting maxC ((processEmptyLineLimiting maxC s).content) =
      (if 0 < maxC ∨ (splitNl s).all (fun l => isBlankLine l) = false
       then ⟨(processEmptyLineLimiting maxC s).content, 0⟩
       else ⟨[], 1⟩) := by
  refine ⟨range_idem sMs eMs s, comment_idem cms s, singleLine_idem rms s, ?_, ?_,
    limiter_idem maxC s⟩
  · have h := lineFilter_idem (fun l => isEmptyListItem (jsTrim l)) s rfl
    show (⟨joinNl ((splitNl ((processEmptyListItemRemoval s).content)).filter
      (fun l => !isEmptyListItem (jsTrim l))),
      ((splitNl ((processEmptyListItemRemoval s).content)).filter
        (fun l => isEmptyListItem (jsTrim l))).length⟩ : StageResult) = _
    rw [show (processEmptyListItemRemoval s).content =
      joinNl ((splitNl s).filter (fun l => !isEmptyListItem (jsTrim l))) from rfl]
    rw [h.1, h.2]
  · have h := lineFilter_idem (fun l => isFinishedTask (jsTrim l)) s rfl
    show (⟨joinNl ((splitNl ((processFinishedTasksRemoval s).content)).filter
      (fun l => !isFinishedTask (jsTrim l))),
      ((splitNl ((processFinishedTasksRemoval s).content)).filter
        (fun l => isFinishedTask (jsTrim l))).length⟩ : StageResult) = _
    rw [show (processFinishedTasksRemoval s).content =
      joinNl ((splitNl s).filter (fun l => !isFinishedTask (jsTrim l))) from rfl]
    rw [h.1, h.2]

end Claims
